import Mathlib

/-!
Verification development for the 3TK mesh-connectivity engine
(`BufferGeometryMutator` in `src/unnamed/part_003`, `ConnectedSTL` in
`src/unnamed/part_000`, and the analyzer in
`src/src/analyzers/BufferGeometryAnalyzer.js`).

The JavaScript code stores a triangle soup as a flat array of scalars
(9 scalars per face), a parallel `neighbors` array of face-edge indices
(or `null`), and a `reverseIslands` array of union-find roots (or `null`).
We embed the data model and the operations shallowly:

* JavaScript numbers are modelled as exact fractions (the type `Q`
  below; every concrete
  input used below consists of values on which IEEE double and rational
  arithmetic agree, and the two double literals that matter — `Math.PI`
  and the `EPSILON = 0.001` of `findNeighbors` — are embedded by their
  exact IEEE-754 values).
* `null`/`undefined` entries are modelled as `Option`.
* The three-scalar string key `keyForTrio` (`v1 + '_' + v2 + '_' + v3`)
  is injective on value trios, so it is modelled by the trio itself.
* External three.js primitives (r90, the version pinned by package.json)
  that the core consumes — `Plane.distanceToPoint`, `Plane.intersectLine`,
  `Vector3.lerp`, `Triangle.normal` — are translated from the three.js
  r90 sources.  The two transcendental primitives (`Vector3.normalize`,
  `Vector3.angleTo`, both irrational in general) are kept as parameters
  of the embedding (`ExtGeom`), exactly as the spec classifies them:
  external collaborators.
-/

set_option linter.unusedVariables false
set_option maxRecDepth 10000

namespace ThreeTK

/-- Exact scalars for JavaScript numbers: a fraction with a positive
denominator, kept unnormalized (Mathlib's `ℚ` normalizes through
`Nat.gcd`, which the kernel cannot evaluate, so concrete runs could not
be checked with it).  Two scalars denote the same JavaScript number iff
they cross-multiply equally (`Q.qeq`); every comparison the source code
performs is modelled with the value-level relations below, never with
structural equality. -/
structure Q where
  num : ℤ
  den : ℤ
  dpos : 0 < den

namespace Q

instance : DecidableEq Q := fun a b =>
  decidable_of_iff (a.num = b.num ∧ a.den = b.den)
    (by cases a; cases b; simp)

instance : Repr Q := ⟨fun a _ => repr (a.num, a.den)⟩

/-- Value equality of scalars (JavaScript `==` on numbers). -/
def qeq (a b : Q) : Prop := a.num * b.den = b.num * a.den

instance (a b : Q) : Decidable (qeq a b) := by unfold qeq; infer_instance

def add (a b : Q) : Q :=
  ⟨a.num * b.den + b.num * a.den, a.den * b.den, mul_pos a.dpos b.dpos⟩

def neg (a : Q) : Q := ⟨-a.num, a.den, a.dpos⟩

def sub (a b : Q) : Q := add a (neg b)

def mul (a b : Q) : Q := ⟨a.num * b.num, a.den * b.den, mul_pos a.dpos b.dpos⟩

/-- Division; the denominator-zero case (never reached by the guarded
call sites of the source) returns 0, as in Mathlib. -/
def div (a b : Q) : Q :=
  if h : 0 < b.num then ⟨a.num * b.den, a.den * b.num, mul_pos a.dpos h⟩
  else if h2 : b.num < 0 then
    ⟨-(a.num * b.den), a.den * (-b.num), mul_pos a.dpos (by omega)⟩
  else ⟨0, 1, one_pos⟩

def le (a b : Q) : Prop := a.num * b.den ≤ b.num * a.den

def lt (a b : Q) : Prop := a.num * b.den < b.num * a.den

/-- Absolute value. -/
def qabs (a : Q) : Q := if a.num < 0 then ⟨-a.num, a.den, a.dpos⟩ else a

instance : Add Q := ⟨add⟩

instance : Neg Q := ⟨neg⟩

instance : Sub Q := ⟨sub⟩

instance : Mul Q := ⟨mul⟩

instance : Div Q := ⟨div⟩

instance : LE Q := ⟨le⟩

instance : LT Q := ⟨lt⟩

instance (n : ℕ) : OfNat Q n := ⟨⟨(n : ℤ), 1, one_pos⟩⟩

instance (a b : Q) : Decidable (a ≤ b) := by
  show Decidable (le a b); unfold le; infer_instance

instance (a b : Q) : Decidable (a < b) := by
  show Decidable (lt a b); unfold lt; infer_instance

/-- Binary minimum by value. -/
def qmin (a b : Q) : Q := if a ≤ b then a else b

/-- The rational value a scalar denotes (used only to transport order
reasoning into `ℚ`). -/
def toRat (a : Q) : ℚ := (a.num : ℚ) / (a.den : ℚ)

end Q

/-- A 3-vector of exact scalars, modelling a `THREE.Vector3` whose
components are JavaScript numbers. -/
structure Vec where
  x : Q
  y : Q
  z : Q
deriving DecidableEq, Repr

namespace Vec

def add (a b : Vec) : Vec := ⟨a.x + b.x, a.y + b.y, a.z + b.z⟩

def sub (a b : Vec) : Vec := ⟨a.x - b.x, a.y - b.y, a.z - b.z⟩

def smul (q : Q) (a : Vec) : Vec := ⟨q * a.x, q * a.y, q * a.z⟩

def dot (a b : Vec) : Q := a.x * b.x + a.y * b.y + a.z * b.z

/-- Cross product, as in `THREE.Vector3.cross`. -/
def cross (a b : Vec) : Vec :=
  ⟨a.y * b.z - a.z * b.y, a.z * b.x - a.x * b.z, a.x * b.y - a.y * b.x⟩

def zero : Vec := ⟨0, 0, 0⟩

/-- The `THREE.Vector3.lerp(v, alpha)` of r90:
componentwise `this + (v - this) * alpha`. -/
def lerp (a b : Vec) (alpha : Q) : Vec :=
  ⟨a.x + (b.x - a.x) * alpha, a.y + (b.y - a.y) * alpha, a.z + (b.z - a.z) * alpha⟩

/-- Value equality of vectors (componentwise JavaScript `==`;
`THREE.Vector3.equals` is exactly this). -/
def veq (a b : Vec) : Prop := Q.qeq a.x b.x ∧ Q.qeq a.y b.y ∧ Q.qeq a.z b.z

instance (a b : Vec) : Decidable (a.veq b) := by unfold veq; infer_instance

/-- Value membership of a key in a key list (JavaScript `Set.has` on
string keys, which compare by number value). -/
def keyMem (k : Vec) (l : List Vec) : Prop := ∃ v ∈ l, veq k v

instance (k : Vec) (l : List Vec) : Decidable (keyMem k l) := by
  unfold keyMem; infer_instance

end Vec

/-- A plane in point-normal form, as `THREE.Plane` (unit `normal` plus
scalar `constant`). -/
structure Plane where
  normal : Vec
  constant : Q
deriving DecidableEq, Repr

namespace Plane

/-- The r90 `THREE.Plane.distanceToPoint`: `normal.dot(point) + constant`. -/
def distanceToPoint (p : Plane) (v : Vec) : Q :=
  Vec.dot p.normal v + p.constant

/-- The r90 `THREE.Plane.intersectLine` on the segment from `s` to `e`:
`undefined` (here `none`) when the segment misses the plane; when the
line direction is parallel to the plane it returns the start point if the
start lies exactly on the plane. -/
def intersectLine (p : Plane) (s e : Vec) : Option Vec :=
  let direction := Vec.sub e s
  let denominator := Vec.dot p.normal direction
  if Q.qeq denominator 0 then
    if Q.qeq (p.distanceToPoint s) 0 then some s else none
  else
    let t := -(Vec.dot s p.normal + p.constant) / denominator
    if t < 0 ∨ t > 1 then none
    else some (Vec.add (Vec.smul t direction) s)

end Plane

/-- The mutable state of a `BufferGeometryMutator` (part_003 lines 6-32):
flat `positions` (9 scalars per face), optional parallel `colors`,
`neighbors` (one entry per face-edge, a face-edge index or `null`) and
`reverseIslands` (one entry per face, a union-find root or `null`).
`ConnectedSTL` (part_000) carries the same fields minus `colors`. -/
structure Mutator where
  positions : List Q
  colors : Option (List Q)
  neighbors : List (Option ℕ)
  reverseIslands : List (Option ℕ)
deriving DecidableEq, Repr

namespace Mutator

/-- Number of faces, `this.positions.length / 9` (floor division as in the
sources, which always use it on arrays of length divisible by 9). -/
def faceCount (m : Mutator) : ℕ := m.positions.length / 9

/-- part_003 line 100, `positionFromFace`. -/
def positionFromFace (faceIndex : ℕ) : ℕ := faceIndex * 9

/-- part_003 line 105, `faceFromPosition` (`Math.floor(positionIndex/9)`). -/
def faceFromPosition (positionIndex : ℕ) : ℕ := positionIndex / 9

/-- part_003 line 109, `edgeFromPosition` (`(positionIndex % 9) / 3`). -/
def edgeFromPosition (positionIndex : ℕ) : ℕ := positionIndex % 9 / 3

/-- part_003 line 113, `positionFromFaceEdge`. -/
def positionFromFaceEdge (faceIndex edgeIndex : ℕ) : ℕ :=
  positionFromFace faceIndex + 3 * edgeIndex

/-- part_003 line 134, `otherPositionInFace(posIndex, +3)` =
`nextPositionInFace`: the next vertex position of the same face, wrapping
from the last vertex back to the first.  The source computes
`posIndex + 3 - 9 * (faceFromPosition (posIndex+3) - faceFromPosition posIndex)`;
the face difference is 0 or 1 and the subtraction never underflows. -/
def nextPositionInFace (posIndex : ℕ) : ℕ :=
  posIndex + 3 - 9 * (faceFromPosition (posIndex + 3) - faceFromPosition posIndex)

/-- part_003 line 145, `otherPositionInFace(posIndex, -3)` =
`previousPositionInFace`.  The JavaScript formula runs through a negative
intermediate (`Math.floor((p-3)/9)`); on the first vertex of a face it
wraps to the last vertex, otherwise it moves back one vertex. -/
def previousPositionInFace (posIndex : ℕ) : ℕ :=
  if posIndex % 9 < 3 then posIndex + 6 else posIndex - 3

/-- The value trio starting at a position index (out-of-range reads,
which the algorithms never perform on well-formed input, read 0 where
JavaScript reads `undefined`). -/
def trioAt (m : Mutator) (p : ℕ) : Vec :=
  ⟨m.positions.getD p 0, m.positions.getD (p + 1) 0, m.positions.getD (p + 2) 0⟩

/-- part_003 line 151, `equalTrios`: exact scalar-for-scalar comparison of
two coordinate trios.  No rounding of any kind. -/
def equalTrios (m : Mutator) (p1 p2 : ℕ) : Prop :=
  Vec.veq (m.trioAt p1) (m.trioAt p2)

instance (m : Mutator) (p1 p2 : ℕ) : Decidable (m.equalTrios p1 p2) := by
  unfold equalTrios; infer_instance

/-- part_003 line 71, `keyForTrio`: the string `v1 + '_' + v2 + '_' + v3`.
Distinct numbers print to distinct strings, so the key is modelled by the
trio itself. -/
def keyForTrio (m : Mutator) (p : ℕ) : Vec := m.trioAt p

/-- part_003 line 80, `hashForTrio`: the weak hash `v1 + v2 + + v3`
(a plain numeric sum, deliberately not injective). -/
def hashForTrio (m : Mutator) (p : ℕ) : Q :=
  m.positions.getD p 0 + m.positions.getD (p + 1) 0 + m.positions.getD (p + 2) 0

/-- part_003 line 159, `isFaceDegenerate`: some two consecutive vertices of
the face carry equal trios (all three vertex pairs are consecutive in the
cyclic order, so this tests every pair). -/
def isFaceDegenerate (m : Mutator) (faceIndex : ℕ) : Prop :=
  ∃ e ∈ [0, 1, 2],
    m.equalTrios (positionFromFaceEdge faceIndex e)
      (nextPositionInFace (positionFromFaceEdge faceIndex e))

instance (m : Mutator) (f : ℕ) : Decidable (m.isFaceDegenerate f) := by
  unfold isFaceDegenerate; infer_instance

/-- part_003 line 550, `getNeighborPosition`: the neighbor array entry is a
face-edge index; multiply by 3 to get a position, or propagate absence. -/
def getNeighborPosition (m : Mutator) (position : ℕ) : Option ℕ :=
  match m.neighbors.getD (position / 3) none with
  | some n => some (n * 3)
  | none => none

/-- JavaScript array element assignment `l[i] = v`: in-range writes
overwrite, a write at or past the length extends the array (holes filled
with `pad`, standing for `undefined`). -/
def setAt {α : Type} (l : List α) (i : ℕ) (v : α) (pad : α) : List α :=
  if i < l.length then l.set i v
  else l ++ List.replicate (i - l.length) pad ++ [v]

/-- part_003 line 34, `clone`: all four arrays are copied with `slice(0)`
(and `colors` stays absent when absent), so in the value model a clone is
the value itself. -/
def clone (m : Mutator) : Mutator := m

/-- part_003 line 518, `positionsFromFace`: the three vertex positions of
a face, starting at `vertexIndex`. -/
def positionsFromFace (faceIndex : ℕ) (vertexIndex : ℕ := 0) : List ℕ :=
  let p1 := positionFromFaceEdge faceIndex vertexIndex
  let p2 := nextPositionInFace p1
  let p3 := nextPositionInFace p2
  [p1, p2, p3]

/-- The faces that `deleteDegenerates` (part_003 line 1612) keeps: those
whose `reverseIslands` entry is an integer, in face order. -/
def keptFaces (m : Mutator) : List ℕ :=
  (List.range m.faceCount).filter fun f => (m.reverseIslands.getD f none).isSome

/-- The `newFaceIndex` map of `deleteDegenerates` (part_003 line 1631):
`faceIndex - degeneratesRemoved` for a kept face, i.e. its rank among the
kept faces; absent for a dropped face. -/
def newFaceIndex (m : Mutator) (f : ℕ) : Option ℕ :=
  if (m.reverseIslands.getD f none).isSome ∧ f < m.faceCount then
    some ((keptFaces m).indexOf f)
  else none

/-- part_003 lines 1612-1659, `deleteDegenerates`: compact the position
(and color) array to the kept faces, keep their `reverseIslands` entries,
and rewrite the neighbor array through `newFaceIndex`: an entry survives
only if its target face survives.  Neighbor entries are stored as
face-edge indices `3 * face + edge`, exactly as in the source
(`newNeighborPosition / 3`). -/
def deleteDegenerates (m : Mutator) : Mutator :=
  let kept := keptFaces m
  { positions := kept.flatMap fun f => (m.positions.drop (9 * f)).take 9
    colors := m.colors.map fun cs => kept.flatMap fun f => (cs.drop (9 * f)).take 9
    reverseIslands := kept.map fun f => m.reverseIslands.getD f none
    neighbors := kept.flatMap fun f => (List.range 3).map fun e =>
      match m.neighbors.getD (3 * f + e) none with
      | some n =>
        match m.newFaceIndex (n / 3) with
        | some nf => some (3 * nf + n % 3)
        | none => none
      | none => none }

/-- The per-entry neighbor rewrite of `deleteDegenerates` (part_003 lines
1643-1652): an entry survives only if its target face survives, remapped
through `newFaceIndex`. -/
def remapNeighborEntry (m : Mutator) (v : Option ℕ) : Option ℕ :=
  match v with
  | some n =>
    match m.newFaceIndex (n / 3) with
    | some nf => some (3 * nf + n % 3)
    | none => none
  | none => none

/-- The body of the marking loop of `disconnectAtSplit` (part_003 lines
837-856) for one face: compute the three signed distances (0 for a vertex
whose key is in `splitPositions`), remove the face from the positive-side
clone when all are ≤ 0 and from the negative-side clone when all are ≥ 0.
Reads come from the receiver `m`; writes go to the clone pair
(`clones.1` is the negative side, `clones.2` the positive side). -/
def disconnectMarkStep (m : Mutator) (pl : Plane) (splitPositions : List Vec)
    (clones : Mutator × Mutator) (faceIndex : ℕ) : Mutator × Mutator :=
  let positions := positionsFromFace faceIndex
  let distances := positions.map fun p =>
    if Vec.keyMem (m.keyForTrio p) splitPositions then 0
    else pl.distanceToPoint (m.trioAt p)
  let d0 := distances.getD 0 0
  let d1 := distances.getD 1 0
  let d2 := distances.getD 2 0
  let clones :=
    if d0 ≤ 0 ∧ d1 ≤ 0 ∧ d2 ≤ 0 then
      (clones.1,
       { clones.2 with reverseIslands := setAt clones.2.reverseIslands faceIndex none none })
    else clones
  if 0 ≤ d0 ∧ 0 ≤ d1 ∧ 0 ≤ d2 then
    ({ clones.1 with reverseIslands := setAt clones.1.reverseIslands faceIndex none none },
     clones.2)
  else clones

/-- The per-vertex signed distance used by `disconnectAtSplit`: 0 when
the vertex's key is in `splitPositions`, the plane distance otherwise
(part_003 lines 841-847). -/
def effectiveDistance (m : Mutator) (pl : Plane) (s : List Vec) (p : ℕ) : Q :=
  if Vec.keyMem (m.keyForTrio p) s then 0 else pl.distanceToPoint (m.trioAt p)

/-- part_003 lines 833-861, `disconnectAtSplit`, with the receiver state
threaded explicitly: the result is `(this, [negative, positive])`.  The
source clones the mutator twice, runs the marking loop (which reads only
`this` and writes only the clones), then compacts both clones with
`deleteDegenerates`; no statement writes to `this`. -/
def disconnectAtSplitT (m : Mutator) (pl : Plane) (splitPositions : List Vec) :
    Mutator × (Mutator × Mutator) :=
  let start : Mutator × (Mutator × Mutator) := (m, (m.clone, m.clone))
  let looped := (List.range m.faceCount).foldl
    (fun st f => (st.1, disconnectMarkStep st.1 pl splitPositions st.2 f)) start
  (looped.1, ((looped.2.1).deleteDegenerates, (looped.2.2).deleteDegenerates))

/-- part_003 `disconnectAtSplit` as the caller sees it: the pair
(negative side, positive side). -/
def disconnectAtSplit (m : Mutator) (pl : Plane) (splitPositions : List Vec) :
    Mutator × Mutator :=
  (disconnectAtSplitT m pl splitPositions).2

/-- The marking phase of `disconnectAtSplit` alone (before the two
`deleteDegenerates` calls): the pair of marked clones. -/
def disconnectMarks (m : Mutator) (pl : Plane) (splitPositions : List Vec) :
    Mutator × Mutator :=
  ((List.range m.faceCount).foldl
    (fun st f => ((st : Mutator × (Mutator × Mutator)).1,
      disconnectMarkStep st.1 pl splitPositions st.2 f)) (m, (m.clone, m.clone))).2

end Mutator

/-- The exact IEEE-754 double value of JavaScript `Math.PI`. -/
def piQ : Q := 884279719003555 / 281474976710656

/-- The exact IEEE-754 double value of the literal `0.001`, the `EPSILON`
of the worst-candidate rule (part_003 line 374). -/
def epsQ : Q := 1152921504606847 / 1152921504606846976

/-- The worst-candidate selection scan of `findNeighbors` (part_003 lines
361-387, identically part_000 lines 308-334): fold over the flattened
list of (open edge, candidate, dihedral angle) triples in iteration
order, keeping the running worst.  A new triple replaces the running
worst exactly when the source condition holds: either the running worst
is within `EPSILON` of 0 or 2π and the new difference from π is at least
as large, or the running worst is not such a sliver and the new angle is
strictly larger. -/
def worstStep (worst : Option (ℕ × ℕ × Q)) (cand : ℕ × ℕ × Q) :
    Option (ℕ × ℕ × Q) :=
  match worst with
  | none => some cand
  | some w =>
    let differenceFrom180 := Q.qabs (piQ - cand.2.2)
    let worstDifferenceFrom180 := Q.qabs (piQ - w.2.2)
    if (worstDifferenceFrom180 > piQ - epsQ ∧
          differenceFrom180 ≥ worstDifferenceFrom180) ∨
       (¬ worstDifferenceFrom180 > piQ - epsQ ∧ cand.2.2 > w.2.2) then
      some cand
    else worst

def worstCandidate (l : List (ℕ × ℕ × Q)) : Option (ℕ × ℕ × Q) :=
  l.foldl worstStep none

/-- The distance of an angle to the nearer of 0 and 2π (the spec's notion
of being a "sliver": an interior dihedral angle close to 0 or to 2π). -/
def distToSliver (a : Q) : Q := Q.qmin (Q.qabs (a - 0)) (Q.qabs (2 * piQ - a))

/-- The non-sliver condition: the angle's departure from π is at most
π − EPSILON, i.e. the angle is not within EPSILON of 0 or 2π. -/
def NonSliver (a : Q) : Prop := Q.qabs (piQ - a) ≤ piQ - epsQ

instance (a : Q) : Decidable (NonSliver a) := by
  unfold NonSliver; infer_instance

namespace Mutator

/-- Valid face-edge positions: multiples of 3 inside the face region. -/
def validFaceEdge (m : Mutator) (p : ℕ) : Prop :=
  p % 3 = 0 ∧ p < 9 * m.faceCount

instance (m : Mutator) (p : ℕ) : Decidable (m.validFaceEdge p) := by
  unfold validFaceEdge; infer_instance

/-- The vertex-start positions enumerated by `vertexPositionMap`
(part_003 line 87): `0, 3, 6, ...` strictly below `positions.length`. -/
def trioIndices (m : Mutator) : List ℕ :=
  (List.range ((m.positions.length + 2) / 3)).map (· * 3)

/-- The bucket of `vertexPositionMap` for a hash value: all vertex-start
positions with that `hashForTrio`, in increasing order (the map is built
in position order, so this is the `map.get(key)` list). -/
def bucketOf (m : Mutator) (h : Q) : List ℕ :=
  m.trioIndices.filter fun p => decide (Q.qeq (m.hashForTrio p) h)

/-- The initial `possibleNeighbors` map of the face-edge starting at
position `p` (part_003 lines 231-260): for every vertex position `n` in
the bucket of `hashForTrio p` whose trio exactly equals `p`'s and whose
previous position's trio exactly equals the trio of `next p`, add the
face-edge starting at `previousPositionInFace n` — unless either face is
degenerate.  Map keys are added in bucket order, each at most once, so a
plain ordered list of keys models the `Map`.  (part_000 lines 183-212 is
the same construction, bucketing by the exact string key instead of the
weak hash; since `equalTrios` is re-checked here, both produce the same
list.) -/
def cands0 (m : Mutator) (p : ℕ) : List ℕ :=
  if m.validFaceEdge p ∧ ¬ m.isFaceDegenerate (faceFromPosition p) then
    (m.bucketOf (m.hashForTrio p)).filterMap fun n =>
      if m.equalTrios n p ∧
         m.equalTrios (nextPositionInFace p) (previousPositionInFace n) ∧
         ¬ m.isFaceDegenerate (faceFromPosition n) then
        some (previousPositionInFace n)
      else none
  else []

/-- The initial `unconnectedEdges` set (part_003 lines 230-259): all three
edge positions of every non-degenerate face, in insertion order. -/
def unconnected0 (m : Mutator) : List ℕ :=
  (List.range m.faceCount).flatMap fun f =>
    if m.isFaceDegenerate f then []
    else [positionFromFaceEdge f 0, positionFromFaceEdge f 1,
          positionFromFaceEdge f 2]

end Mutator

/-- The loop state of `findNeighbors`: the per-edge candidate key lists
(`possibleNeighbors`, keyed by the position of the owning face-edge), the
chosen neighbors (`faces[f].neighbors[e]`, keyed likewise, holding the
neighbor position), the union-find parent (`faces[f].island`) and rank,
and the `unconnectedEdges` set in its JavaScript insertion order.
The lazily cached dihedral angles of the source are dropped: the cache
always holds exactly the value `facesAngle` would recompute (positions
never change during resolution), so caching is observationally inert. -/
structure NState where
  cands : ℕ → List ℕ
  nb : ℕ → Option ℕ
  island : ℕ → Option ℕ
  rank : ℕ → ℕ
  unconnected : List ℕ

namespace NState

open Mutator

/-- The state at entry of the resolution loop (part_003 lines 209-260). -/
def init (m : Mutator) : NState :=
  { cands := m.cands0
    nb := fun _ => none
    island := fun f => if f < m.faceCount ∧ ¬ m.isFaceDegenerate f then some f else none
    rank := fun _ => 0
    unconnected := m.unconnected0 }

/-- Root chase of the union-find `findIsland` (part_003 lines 179-184).
The source compresses paths along the way; compression changes neither
roots nor ranks, so the embedding chases without rewriting.  Fuelled: the
parent forest of a union-by-rank structure has depth below the face
count, so the fuel used below never runs out. -/
def chase (island : ℕ → Option ℕ) : ℕ → ℕ → Option ℕ
  | 0, f => island f
  | fuel + 1, f =>
    match island f with
    | none => none
    | some p => if p = f then some f else chase island fuel p

/-- part_003 lines 187-207, `joinIslands`: union by rank. -/
def joinIslands (fc : ℕ) (s : NState) (f1 f2 : ℕ) : NState :=
  match chase s.island (fc + 1) f1, chase s.island (fc + 1) f2 with
  | some root1, some root2 =>
    if root1 = root2 then s
    else if s.rank root1 < s.rank root2 then
      { s with island := fun f => if f = root1 then some root2 else s.island f }
    else if s.rank root2 < s.rank root1 then
      { s with island := fun f => if f = root2 then some root1 else s.island f }
    else
      { s with
        island := fun f => if f = root2 then some root1 else s.island f
        rank := fun f => if f = root1 then s.rank root1 + 1 else s.rank f }
  | _, _ => s

/-- part_003 lines 290-303, `setNeighbor(p1, p2)`: remove `p1` from the
candidate map of each of `p1`'s candidates, clear `p1`'s own candidate
map, and record `p2` as the chosen neighbor of `p1`. -/
def setNeighbor (s : NState) (p1 p2 : ℕ) : NState :=
  { s with
    cands := fun q =>
      if q = p1 then []
      else if q ∈ s.cands p1 then (s.cands q).filter (fun r => r ≠ p1)
      else s.cands q
    nb := fun q => if q = p1 then some p2 else s.nb q }

/-- part_003 lines 306-314, `connectEdge`: symmetric `setNeighbor`, join
the two faces' islands, and drop both positions from `unconnectedEdges`. -/
def connectEdge (fc : ℕ) (s : NState) (p1 p2 : ℕ) : NState :=
  let s1 := setNeighbor s p1 p2
  let s2 := setNeighbor s1 p2 p1
  let s3 := joinIslands fc s2 (faceFromPosition p1) (faceFromPosition p2)
  { s3 with unconnected := s3.unconnected.filter fun e => e ≠ p1 ∧ e ≠ p2 }

/-- Phase (a) of one resolution round (part_003 lines 318-328): connect
every still-open edge that has exactly one candidate.  The JavaScript
iterates the live `Set`; elements removed mid-pass would fail the
`neighbors == null` guard anyway, so folding over the entry snapshot with
the same guard is equivalent. -/
def phase1 (fc : ℕ) (s : NState) : NState × Bool :=
  s.unconnected.foldl
    (fun acc p =>
      let s := acc.1
      let q := positionFromFaceEdge (faceFromPosition p) (edgeFromPosition p)
      if s.nb q = none ∧ (s.cands q).length = 1 then
        (connectEdge fc s q ((s.cands q).headD 0), true)
      else acc)
    (s, false)

/-- Phase (b) of one resolution round (part_003 lines 335-349): connect a
still-open edge to a candidate that already lies on the same island.  The
inner JavaScript loop iterates the live candidate map (cleared by a
connection, ending the iteration); folding over the entry snapshot with a
current-membership guard is equivalent. -/
def phase2 (fc : ℕ) (s : NState) : NState × Bool :=
  s.unconnected.foldl
    (fun acc p =>
      let s := acc.1
      let q := positionFromFaceEdge (faceFromPosition p) (edgeFromPosition p)
      if s.nb q = none then
        let currentIsland := chase s.island (fc + 1) (faceFromPosition p)
        (s.cands q).foldl
          (fun acc2 c =>
            let s2 := acc2.1
            if c ∈ s2.cands q ∧
               chase s2.island (fc + 1) (faceFromPosition c) = currentIsland then
              (connectEdge fc s2 q c, true)
            else acc2)
          acc
      else acc)
    (s, false)

/-- The flattened candidate scan of phase (c) (part_003 lines 364-387) in
iteration order, with the dihedral angle of each pair computed by the
external `facesAngle` (the source computes it lazily and caches it; the
cache always equals the recomputation). -/
def phase3Cands (ang : ℕ → ℕ → Q) (s : NState) : List (ℕ × ℕ × Q) :=
  s.unconnected.flatMap fun p =>
    let q := positionFromFaceEdge (faceFromPosition p) (edgeFromPosition p)
    (s.cands q).map fun c => (p, c, ang p (nextPositionInFace c))

/-- part_003 lines 392-394: remove the selected worst pair from both
candidate maps. -/
def removePair (s : NState) (wp wc : ℕ) : NState :=
  let q1 := positionFromFaceEdge (faceFromPosition wp) (edgeFromPosition wp)
  let q2 := positionFromFaceEdge (faceFromPosition wc) (edgeFromPosition wc)
  let c1 : ℕ → List ℕ := fun q =>
    if q = q1 then (s.cands q).filter (fun r => r ≠ wc) else s.cands q
  let c2 : ℕ → List ℕ := fun q =>
    if q = q2 then (c1 q).filter (fun r => r ≠ wp) else c1 q
  { s with cands := c2 }

/-- Result of one round of the resolution loop: either the loop
continues with a new state, or no connection and no removal was possible
(the non-manifold situation of spec step 4d). -/
inductive StepRes where
  | next (s : NState)
  | stuck (s : NState)

/-- One round of the resolution `while` loop (part_003 lines 316-396):
phase (a); if nothing was found, phase (b); if still nothing, compute
every open edge's every candidate's angle and discard the worst pair,
or report the stuck state when there is no candidate at all. -/
def loopBody (ang : ℕ → ℕ → Q) (fc : ℕ) (s : NState) : StepRes :=
  let r1 := phase1 fc s
  if r1.2 then .next r1.1 else
  let r2 := phase2 fc r1.1
  if r2.2 then .next r2.1 else
  match worstCandidate (phase3Cands ang r2.1) with
  | none => .stuck r2.1
  | some w => .next (removePair r2.1 w.1 w.2.1)

/-- The resolution loop of part_003: on the stuck state it `break`s and
falls through to serialization with the unconnected edges left alone.
Fuelled; every round either connects an edge or removes a candidate
pair, so the generous fuel used below never runs out on the inputs
considered. -/
def loopM (ang : ℕ → ℕ → Q) (fc : ℕ) : ℕ → NState → NState
  | 0, s => s
  | fuel + 1, s =>
    if s.unconnected.isEmpty then s
    else
      match loopBody ang fc s with
      | .next s2 => loopM ang fc fuel s2
      | .stuck s2 => s2

/-- The resolution loop of part_000 (`ConnectedSTL.findNeighbors`): the
stuck state makes the whole function `return false` (line 337), modelled
as `none`.  Fuel exhaustion (never reached) is not a failure. -/
def loopC (ang : ℕ → ℕ → Q) (fc : ℕ) : ℕ → NState → Option NState
  | 0, s => some s
  | fuel + 1, s =>
    if s.unconnected.isEmpty then some s
    else
      match loopBody ang fc s with
      | .next s2 => loopC ang fc fuel s2
      | .stuck _ => none

/-- Serialization of the chosen neighbors (part_003 lines 410-413): the
flat `neighbors` array holds, per face-edge in face order, the stored
neighbor position divided by 3, or the absence marker. -/
def serializeNeighbors (fc : ℕ) (s : NState) : List (Option ℕ) :=
  (List.range fc).flatMap fun f =>
    (List.range 3).map fun e =>
      match s.nb (positionFromFaceEdge f e) with
      | some n => some (n / 3)
      | none => none

/-- Serialization of the islands (part_003 lines 405-409): per face, its
union-find root; degenerate faces keep the absence marker. -/
def serializeIslands (fc : ℕ) (s : NState) : List (Option ℕ) :=
  (List.range fc).map fun f => chase s.island (fc + 1) f

end NState

namespace Mutator

/-- Fuel that the resolution loop can never exhaust: each round removes
an edge from `unconnectedEdges` (at most `3 · faceCount` of them) or
deletes a candidate pair (at most `(3 · faceCount)²` candidate entries). -/
def findNeighborsFuel (m : Mutator) : ℕ :=
  (m.positions.length + 3) * (m.positions.length + 3)

/-- part_003 lines 173-416, `BufferGeometryMutator.findNeighbors`,
parameterized by the external dihedral-angle function `facesAngle`
(transcendental: face normals and `angleTo`).  Returns the mutator with
the rebuilt `neighbors` and `reverseIslands` together with the source's
boolean result — which in this variant is `true` even when the loop broke
out of the stuck state (line 390 `break`, line 415 `return true`). -/
def findNeighborsM (ang : ℕ → ℕ → Q) (m : Mutator) : Mutator × Bool :=
  let fc := m.faceCount
  let s := NState.loopM ang fc m.findNeighborsFuel (NState.init m)
  ({ m with
      neighbors := NState.serializeNeighbors fc s
      reverseIslands := NState.serializeIslands fc s }, true)

/-- part_003 lines 57-68, `BufferGeometryMutator.fromBufferGeometry`:
copy the position (and color) attribute, run `findNeighbors`, and return
`null` if it reports failure. -/
def fromBufferGeometryM (ang : ℕ → ℕ → Q) (positions : List Q)
    (colors : Option (List Q)) : Option Mutator :=
  let m : Mutator :=
    { positions := positions, colors := colors, neighbors := [], reverseIslands := [] }
  let r := findNeighborsM ang m
  if r.2 then some r.1 else none

/-- part_000 lines 124-364, `ConnectedSTL.findNeighbors`: same loop, but
the stuck state returns failure (`none`). -/
def findNeighborsC (ang : ℕ → ℕ → Q) (m : Mutator) : Option Mutator :=
  (NState.loopC ang m.faceCount m.findNeighborsFuel (NState.init m)).map fun s =>
    { m with
        neighbors := NState.serializeNeighbors m.faceCount s
        reverseIslands := NState.serializeIslands m.faceCount s }

end Mutator

/-- JavaScript `Set.add` on the split-position key set: append if absent
(keys are trios; the string key is injective on trios). -/
def addKey (l : List Vec) (k : Vec) : List Vec :=
  if Vec.keyMem k l then l else l ++ [k]

namespace Mutator

/-- Write the three scalars of one point at an offset
(part_003 lines 559-565, `setPositions`, one point). -/
def writeVec (l : List Q) (offset : ℕ) (p : Vec) : List Q :=
  setAt (setAt (setAt l offset p.x 0) (offset + 1) p.y 0) (offset + 2) p.z 0

/-- part_003 lines 559-565, `setPositions`: copy the x,y,z of the points
into the array starting at the offset. -/
def writeVecs (l : List Q) (offset : ℕ) (points : List Vec) : List Q :=
  match points with
  | [] => l
  | p :: rest => writeVecs (writeVec l offset p) (offset + 3) rest

/-- Color trio at a position (a `THREE.Color` is an r,g,b triple; absent
color arrays are only read under `if (this.colors)` guards). -/
def colorAt (cs : List Q) (p : ℕ) : Vec :=
  ⟨cs.getD p 0, cs.getD (p + 1) 0, cs.getD (p + 2) 0⟩

end Mutator

/-- The running state of `splitFaces` (part_003 lines 589-764): the
mutator being rewritten, the `splitPositions` key set, and ghost counters
of resolved crossings (a crossing of an edge with a neighbor counts as
interior, one without as boundary; the counters mirror how many new faces
the source appends and record nothing else). -/
structure SplitState where
  m : Mutator
  splitPositions : List Vec
  interiorCrossings : ℕ
  boundaryCrossings : ℕ

namespace Mutator

/-- The symmetry-fixing loop of `splitFaces` (part_003 lines 749-754):
for each entry just pushed, if it holds a face-edge index, point that
slot back at the entry.  Sequential, re-reading the array each step, as
in the source (an entry overwritten by an earlier step of this very loop
is re-read in its overwritten form). -/
def symLoop (nbArr : List (Option ℕ)) (start count : ℕ) : List (Option ℕ) :=
  (List.range count).foldl
    (fun arr j =>
      match arr.getD (start + j) none with
      | some v => setAt arr v (some (start + j)) none
      | none => arr)
    nbArr

/-- The vertex-to-move decision of `splitFaces` (part_003 lines 668-684):
0 when the diagonal from the side's vertex 0 to its vertex 2 misses the
plane (or meets it only at an endpoint, by the r90 `intersectLine`),
else 1. -/
def vertexToMove (pl : Plane) (m : Mutator) (side : ℕ × ℕ × ℕ) : ℕ :=
  match pl.intersectLine (m.trioAt side.1) (m.trioAt side.2.2) with
  | none => 0
  | some pt =>
    if Vec.veq pt (m.trioAt side.1) ∨ Vec.veq pt (m.trioAt side.2.2) then 0
    else 1

/-- One side's move-and-append of `splitFaces` (part_003 lines 686-710):
move the chosen vertex of the side to the intersection point, record its
key, and append the new face of that side (built from the vertex values
cached before any move, as in the source, which copied them out first). -/
def moveSide (pl : Plane) (m : Mutator) (ipt : Vec) (icolor : Option Vec)
    (acc : Mutator × List Vec) (side : ℕ × ℕ × ℕ) : Mutator × List Vec :=
  let mm := acc.1
  let target := if vertexToMove pl m side = 0 then side.1 else side.2.1
  let cachedV := (m.trioAt side.1, m.trioAt side.2.1, m.trioAt side.2.2)
  let cachedC := m.colors.map fun cs =>
    (colorAt cs side.1, colorAt cs side.2.1, colorAt cs side.2.2)
  let mm := { mm with positions := writeVecs mm.positions target [ipt] }
  let mm := { mm with colors := mm.colors.map (fun cs =>
    writeVecs cs target [(icolor.getD Vec.zero)]) }
  let keys := addKey acc.2 (mm.keyForTrio target)
  let newFaceVs :=
    if vertexToMove pl m side = 0 then [cachedV.2.2, cachedV.1, ipt]
    else [ipt, cachedV.2.1, cachedV.2.2]
  let newFaceCs : Option (List Vec) := cachedC.map fun cc =>
    if vertexToMove pl m side = 0 then [cc.2.2, cc.1, icolor.getD Vec.zero]
    else [icolor.getD Vec.zero, cc.2.1, cc.2.2]
  let mm := { mm with positions := writeVecs mm.positions mm.positions.length newFaceVs }
  let mm := { mm with colors := mm.colors.map (fun cs =>
    writeVecs cs cs.length (newFaceCs.getD [])) }
  (mm, keys)

/-- The neighbor entries `splitFaces` pushes (part_003 lines 713-747):
one 3-entry block per side, by the six vertex-to-move cases. -/
def splitEntries (m2 : Mutator) (nni : ℕ) (neighbor : Option (ℕ × ℕ × ℕ))
    (vtms : List ℕ) (p00 p01 p02 : ℕ) : List (Option ℕ) :=
  match neighbor, vtms with
  | none, [1] =>
    [none, m2.neighbors.getD (p01 / 3) none, some (p01 / 3)]
  | none, [0] =>
    [m2.neighbors.getD (p02 / 3) none, none, some (p02 / 3)]
  | some (p10, p11, p12), [1, 1] =>
    [some (p10 / 3), m2.neighbors.getD (p01 / 3) none, some (p01 / 3),
     some (p00 / 3), m2.neighbors.getD (p11 / 3) none, some (p11 / 3)]
  | some (p10, p11, p12), [0, 0] =>
    [m2.neighbors.getD (p02 / 3) none, some (p10 / 3), some (p02 / 3),
     m2.neighbors.getD (p12 / 3) none, some (p00 / 3), some (p12 / 3)]
  | some (p10, p11, p12), [1, 0] =>
    [some (nni + 4), m2.neighbors.getD (p01 / 3) none, some (p01 / 3),
     m2.neighbors.getD (p12 / 3) none, some nni, some (p12 / 3)]
  | some (p10, p11, p12), [0, 1] =>
    [m2.neighbors.getD (p02 / 3) none, some (nni + 3), some (p02 / 3),
     some (nni + 1), m2.neighbors.getD (p11 / 3) none, some (p11 / 3)]
  | _, _ => []

/-- The island-root copies of `splitFaces` (part_003 lines 755-760): the
new face of each side inherits the island root of that side's face. -/
def islandCopies (m3 : Mutator) (sides : List (ℕ × ℕ × ℕ)) (newPositions : ℕ) :
    Mutator :=
  (List.range sides.length).foldl
    (fun mm i =>
      let srcFace := faceFromPosition ((sides.getD i (0, 0, 0)).1)
      { mm with reverseIslands :=
          (setAt mm.reverseIslands (faceFromPosition (newPositions + 9 * i))
            (mm.reverseIslands.getD srcFace none) none) })
    m3

/-- The crossing case of the `splitFaces` body (part_003 lines 660-761):
compute the intersection point, move the chosen vertex of each side and
append each side's new face, push the new neighbor entries of the
appropriate case, make them symmetric, and copy the island roots
forward.  Returns the rewritten mutator, the grown key set, and the
number of sides (1 for a boundary edge, 2 for a shared edge). -/
def splitCrossStep (pl : Plane) (m : Mutator) (splitPositions : List Vec)
    (faceIndex edgeIndex : ℕ) : Mutator × List Vec × ℕ :=
  let p00 := positionFromFaceEdge faceIndex edgeIndex
  let p01 := nextPositionInFace p00
  let p02 := nextPositionInFace p01
  let neighbor : Option (ℕ × ℕ × ℕ) :=
    (m.getNeighborPosition p00).map fun np =>
      (np, nextPositionInFace np, previousPositionInFace np)
  let v00 := m.trioAt p00
  let v01 := m.trioAt p01
  let d0 := pl.distanceToPoint v00
  let d1 := pl.distanceToPoint v01
  let alpha := d0 / (d0 - d1)
  let ipt := v00.lerp v01 alpha
  let icolor := m.colors.map fun cs => (colorAt cs p00).lerp (colorAt cs p01) alpha
  let sides : List (ℕ × ℕ × ℕ) :=
    (p00, p01, p02) :: (match neighbor with | some nbr => [nbr] | none => [])
  let afterMoves := sides.foldl (moveSide pl m ipt icolor) (m, splitPositions)
  let m2 := afterMoves.1
  let newNeighborIndex := m2.neighbors.length
  let entries := splitEntries m2 newNeighborIndex neighbor
    (sides.map (vertexToMove pl m)) p00 p01 p02
  let m3 := { m2 with
    neighbors := symLoop (m2.neighbors ++ entries) newNeighborIndex (sides.length * 3) }
  let newPositions := m3.positions.length - 9 * sides.length
  let m4 := islandCopies m3 sides newPositions
  (m4, afterMoves.2, sides.length)

/-- The body of `splitFaces` for one (face, edge) pair (part_003 lines
604-761).  Skips the edge when an endpoint key is already split or when
the edge does not strictly cross the plane (recording exact-zero
endpoint keys on the way, lines 643-648); otherwise runs the crossing
case and counts it as interior (two sides) or boundary (one side). -/
def splitFaceEdgeStep (pl : Plane) (st : SplitState) (faceIndex edgeIndex : ℕ) :
    SplitState :=
  let m := st.m
  let p00 := positionFromFaceEdge faceIndex edgeIndex
  let p01 := nextPositionInFace p00
  if Vec.keyMem (m.keyForTrio p00) st.splitPositions ∨
     Vec.keyMem (m.keyForTrio p01) st.splitPositions then
    st
  else
    let d0 := pl.distanceToPoint (m.trioAt p00)
    let d1 := pl.distanceToPoint (m.trioAt p01)
    let split1 := if Q.qeq d0 0 then addKey st.splitPositions (m.keyForTrio p00)
                  else st.splitPositions
    let split2 := if Q.qeq d1 0 then addKey split1 (m.keyForTrio p01) else split1
    if Q.qeq d0 0 ∨ Q.qeq d1 0 ∨ (d0 < 0 ∧ d1 < 0) ∨ (d0 > 0 ∧ d1 > 0) then
      { st with splitPositions := split2 }
    else
      -- In this branch both distances are nonzero, so the two
      -- exact-zero recordings above did not fire and the key set the
      -- crossing case starts from is `st.splitPositions` itself.
      let r := splitCrossStep pl m st.splitPositions faceIndex edgeIndex
      { m := r.1
        splitPositions := r.2.1
        interiorCrossings := st.interiorCrossings + (if r.2.2 = 2 then 1 else 0)
        boundaryCrossings := st.boundaryCrossings + (if r.2.2 = 1 then 1 else 0) }

/-- part_003 lines 589-764, `splitFaces`: iterate the step over every
(face, edge) pair of the faces present at entry (`const faceCount`), in
order. -/
def splitFacesFull (m : Mutator) (pl : Plane) : SplitState :=
  let fc := m.faceCount
  (List.range fc).foldl
    (fun st f =>
      (List.range 3).foldl (fun st2 e => splitFaceEdgeStep pl st2 f e) st)
    { m := m, splitPositions := [], interiorCrossings := 0, boundaryCrossings := 0 }

/-- part_003 `splitFaces` as the caller sees it: the mutated mutator and
the returned `splitPositions` key set. -/
def splitFaces (m : Mutator) (pl : Plane) : Mutator × List Vec :=
  let st := m.splitFacesFull pl
  (st.m, st.splitPositions)

end Mutator

/-- The external transcendental vector primitives consumed (not
implemented) by the core, per the spec's scope: `Vector3.normalize`
(a division by a square-root length) and `Vector3.angleTo` (an
arc-cosine).  The spec lists vector math among the external
collaborators, so the embedding takes them as parameters. -/
structure ExtGeom where
  normalize : Vec → Vec
  angleTo : Vec → Vec → Q

namespace Mutator

/-- The r90 `THREE.Triangle.normal`: the cross product `(c-b) × (a-b)`,
normalized when nonzero and the zero vector otherwise.  The zero test
(`lengthSq > 0`) is exact, so it is decidable over Q. -/
def triNormal (ext : ExtGeom) (a b c : Vec) : Vec :=
  let cr := Vec.cross (Vec.sub c b) (Vec.sub a b)
  if Vec.veq cr Vec.zero then Vec.zero else ext.normalize cr

/-- part_003 line 1346, `angle3`: the angle at `middle` of the triangle
`left, middle, right`, via the external `angleTo`. -/
def angle3 (ext : ExtGeom) (left middle right : Vec) : Q :=
  ext.angleTo (Vec.sub left middle) (Vec.sub right middle)

/-- part_003 lines 1307-1343, `rotateEdge`: flip the shared diagonal of
the two faces adjacent across the edge previous to `position`.  Vertex
values are cached before the two writes; the neighbor rewiring and the
symmetry-fixing loop run sequentially on the evolving array, exactly as
in the source.  A `null` neighbor lookup behaves as position 0 in the
source's index arithmetic (`null` coerces to 0) and is modelled the same
way. -/
def rotateEdge (m : Mutator) (position : ℕ) : Mutator :=
  let p00 := nextPositionInFace position
  let p01 := nextPositionInFace p00
  let p02 := previousPositionInFace p00
  let p10 := nextPositionInFace ((m.getNeighborPosition p02).getD 0)
  let p11 := nextPositionInFace p10
  let p12 := previousPositionInFace p10
  let pos1 := writeVecs m.positions p12 [m.trioAt p01]
  let pos2 := writeVecs pos1 p02 [m.trioAt p11]
  let newColors := m.colors.map fun cs =>
    writeVecs (writeVecs cs p12 [colorAt cs p01]) p02 [colorAt cs p11]
  let a1 := setAt m.neighbors (p02 / 3) (m.neighbors.getD (p11 / 3) none) none
  let a2 := setAt a1 (p11 / 3) (some (p01 / 3)) none
  let a3 := setAt a2 (p12 / 3) (a2.getD (p01 / 3) none) none
  let a4 := setAt a3 (p01 / 3) (some (p11 / 3)) none
  let sym := [p00, p01, p02, p10, p11, p12].foldl
    (fun arr p =>
      match arr.getD (p / 3) none with
      | some v => setAt arr v (some (p / 3)) none
      | none => arr)
    a4
  { m with positions := pos2, colors := newColors, neighbors := sym }

/-- part_003 lines 1272-1300, `removeDegenerates0Angle`: for each listed
face still in an island, splice out every zero-length edge (two equal
consecutive trios): reconnect the two flanking neighbors to each other
(statement by statement on the evolving array) and mark the face's
island absent.  Returns the mutator and the number of degenerates
found. -/
def removeDegenerates0Angle (m : Mutator) (faces : List ℕ) : Mutator × ℕ :=
  faces.foldl
    (fun st f =>
      let m := st.1
      if (m.reverseIslands.getD f none).isNone then st
      else
        (List.range 3).foldl
          (fun st2 e =>
            let m := st2.1
            let position := positionFromFaceEdge f e
            let nextPosition := nextPositionInFace position
            if m.equalTrios position nextPosition then
              let edge1 := nextPosition
              let edge2 := nextPositionInFace edge1
              let nb1 := m.neighbors
              let nb2 :=
                match nb1.getD (edge1 / 3) none with
                | some v => setAt nb1 v (nb1.getD (edge2 / 3) none) none
                | none => nb1
              let nb3 :=
                match nb2.getD (edge2 / 3) none with
                | some v => setAt nb2 v (nb2.getD (edge1 / 3) none) none
                | none => nb2
              ({ m with neighbors := nb3,
                        reverseIslands := setAt m.reverseIslands f none none },
               st2.2 + 1)
            else st2)
          st)
    (m, 0)

/-- part_003 lines 1570-1609, `removeDegenerates180Angle`: for each
listed face still in an island, not trio-degenerate, whose triangle
normal is exactly zero (three colinear vertices), find the vertex of the
largest angle (the 180° one) and rotate the edge after it into the
neighboring face.  Returns the mutator and the number of rotations. -/
def removeDegenerates180Angle (ext : ExtGeom) (m : Mutator) (faces : List ℕ) :
    Mutator × ℕ :=
  faces.foldl
    (fun st f =>
      let m := st.1
      if (m.reverseIslands.getD f none).isNone ∨ m.isFaceDegenerate f then st
      else
        let v : ℕ → Vec := fun i => m.trioAt (positionFromFaceEdge f (i % 3))
        let normal := triNormal ext (v 0) (v 1) (v 2)
        if ¬ Vec.veq normal Vec.zero then st
        else
          let pick := (List.range 3).foldl
            (fun (acc : ℕ × Option Q) i =>
              let angle := angle3 ext (v (i % 3)) (v ((i + 1) % 3)) (v ((i + 2) % 3))
              match acc.2 with
              | none => ((i + 1) % 3, some angle)
              | some la => if angle > la then ((i + 1) % 3, some angle) else acc)
            (0, none)
          (m.rotateEdge (positionFromFaceEdge f ((pick.1 + 1) % 3)), st.2 + 1))
    (m, 0)

/-- part_003 lines 1259-1269, `removeDegenerates`: alternate the 0° and
180° passes until a full pass removes nothing.  Fuelled; each pass either
marks a face or rotates an edge, and termination of the rotation dance is
the source's own (unchecked) assumption, so theorems below hold for
every fuel. -/
def removeDegenerates (ext : ExtGeom) (faces : List ℕ) :
    ℕ → Mutator → Mutator
  | 0, m => m
  | fuel + 1, m =>
    let r0 := m.removeDegenerates0Angle faces
    let r180 := removeDegenerates180Angle ext r0.1 faces
    if r0.2 + r180.2 = 0 then r180.1
    else removeDegenerates ext faces fuel r180.1

/-- The fan test of `mergeFaces` (part_003 lines 1217-1236): walk the
faces around the collapse, checking that every affected normal is either
unchanged (under the supplied predicate) or becomes zero.  Returns the
final `currentPosition`: `none` when the walk broke on a missing
neighbor, `some c` when it broke on a changed normal at `c` or came back
around (`c = start`). -/
def mergeWalk (ext : ExtGeom) (eq : Vec → Vec → Bool) (m : Mutator)
    (startVertex : Vec) (start : ℕ) : ℕ → ℕ → Option ℕ
  | 0, _ => none
  | fuel + 1, cur =>
    match m.getNeighborPosition (nextPositionInFace cur) with
    | none => none
    | some c =>
      let nxt := nextPositionInFace c
      let third := nextPositionInFace nxt
      let neighborNormal := triNormal ext (m.trioAt c) (m.trioAt nxt) (m.trioAt third)
      let newNeighborNormal := triNormal ext (m.trioAt c) startVertex (m.trioAt third)
      if ¬ Vec.veq newNeighborNormal Vec.zero ∧
         ¬ eq neighborNormal newNeighborNormal then
        some c
      else if c = start then some c
      else mergeWalk ext eq m startVertex start fuel c

/-- The collapse of `mergeFaces` (part_003 lines 1240-1249): walk the
fan again, writing the start vertex (and color) over each fan vertex and
collecting the touched faces.  A `null` neighbor mid-collapse continues
at position 0 (the source's coercion), without the stop test, as in the
`while (currentPosition != startPosition)` condition. -/
def mergeCollapse (m : Mutator) (startVertex : Vec) (start : ℕ) :
    ℕ → ℕ → Mutator × List ℕ
  | 0, _ => (m, [])
  | fuel + 1, cur =>
    let nxt := nextPositionInFace cur
    let m2 := { m with
      positions := writeVecs m.positions nxt [startVertex]
      colors := m.colors.map fun cs => writeVecs cs nxt [colorAt cs start] }
    let face := faceFromPosition cur
    match m2.getNeighborPosition nxt with
    | none =>
      let r := mergeCollapse m2 startVertex start fuel 0
      (r.1, face :: r.2)
    | some c =>
      if c = start then (m2, [face])
      else
        let r := mergeCollapse m2 startVertex start fuel c
        (r.1, face :: r.2)

/-- One (face, edge) step of the merge pass (part_003 lines 1202-1252):
skip faces already marked absent; otherwise run the fan test from this
edge's start vertex and, when the walk comes back to the start, collapse
the fan and clean the freshly degenerate faces. -/
def mergeStep (ext : ExtGeom) (eq : Vec → Vec → Bool) (fuel : ℕ)
    (st : Mutator × ℕ) (f e : ℕ) : Mutator × ℕ :=
  let m := st.1
  if (m.reverseIslands.getD f none).isNone then st
  else
    let start := positionFromFaceEdge f e
    let startVertex := m.trioAt start
    match mergeWalk ext eq m startVertex start fuel start with
    | some c =>
      if c = start then
        let r := mergeCollapse m startVertex start fuel start
        (removeDegenerates ext r.2 fuel r.1, st.2 + 1)
      else st
    | none => st

/-- The outer fixed-point loop of `mergeFaces` (part_003 lines
1200-1255): a full pass over every (face, edge) of the entry face count
(stale after compaction, with the absent-island guard covering the
overhang), then `deleteDegenerates`, repeated until a pass merges
nothing. -/
def mergeFacesLoop (ext : ExtGeom) (eq : Vec → Vec → Bool) (fc fuel : ℕ) :
    ℕ → Mutator × ℕ → Mutator × ℕ
  | 0, st => st
  | outerFuel + 1, (m, merged) =>
    let pass := (List.range fc).foldl
      (fun st f =>
        (List.range 3).foldl (fun st2 e => mergeStep ext eq fuel st2 f e) st)
      (m, merged)
    let m2 := pass.1.deleteDegenerates
    if pass.2 = merged then (m2, pass.2)
    else mergeFacesLoop ext eq fc fuel outerFuel (m2, pass.2)

/-- part_003 lines 1189-1257, `mergeFaces(equalNormals)`: clean all
degenerates, then repeat merge passes to a fixed point.  Returns the
mutator and the number of merges performed. -/
def mergeFaces (ext : ExtGeom) (eq : Vec → Vec → Bool) (fuel : ℕ)
    (m : Mutator) : Mutator × ℕ :=
  let fc := m.faceCount
  let m1 := removeDegenerates ext (List.range fc) fuel m
  mergeFacesLoop ext eq fc fuel fuel (m1, 0)

/-- The set of distinct island labels over the live faces. -/
def islandLabels (m : Mutator) : Finset ℕ :=
  (m.reverseIslands.filterMap id).toFinset

/-- The number of distinct islands (distinct `reverseIslands` roots over
live faces). -/
def islandCount (m : Mutator) : ℕ := m.islandLabels.card

/-- part_000 lines 915-952, `ConnectedSTL.deleteDegenerates`: like the
mutator version but without colors and without the absence guards on the
neighbor remap: a `null` neighbor coerces to position 0 in the source's
index arithmetic (so its target face is face 0), and a dropped target
face makes `positionFromFaceEdge(undefined, e)` a `NaN` entry, which all
readers treat as absent (modelled `none`). -/
def deleteDegeneratesC (m : Mutator) : Mutator :=
  let kept := keptFaces m
  { positions := kept.flatMap fun f => (m.positions.drop (9 * f)).take 9
    colors := m.colors
    reverseIslands := kept.map fun f => m.reverseIslands.getD f none
    neighbors := kept.flatMap fun f => (List.range 3).map fun e =>
      let oldNeighborPosition := (m.getNeighborPosition (positionFromFaceEdge f e)).getD 0
      match m.newFaceIndex (faceFromPosition oldNeighborPosition) with
      | some nf => some (positionFromFaceEdge nf (edgeFromPosition oldNeighborPosition) / 3)
      | none => none }

/-- part_000 lines 30-38, `ConnectedSTL.fromBufferGeometry`: copy the
positions, run `findNeighbors` and return `null` on its failure,
otherwise clean all degenerates and compact.  (part_000's
`removeDegenerates0Angle` guard is `=== null` where the mutator's is
`!Number.isInteger`; after `findNeighbors` the degenerate faces carry
`undefined` and no neighbors, for which the two guards produce the same
final state, so the shared embedding is reused.  part_000's 180° pass is
the mutator's `rotateEdge` path written inline, with the unguarded
symmetry loop writing to a `null` array property — a no-op, as the guard
is.) -/
def fromBufferGeometryC (ext : ExtGeom) (ang : ℕ → ℕ → Q) (fuel : ℕ)
    (positions : List Q) : Option Mutator :=
  let m : Mutator :=
    { positions := positions, colors := none, neighbors := [], reverseIslands := [] }
  match m.findNeighborsC ang with
  | none => none
  | some m2 =>
    some (deleteDegeneratesC
      (removeDegenerates ext (List.range m2.faceCount) fuel m2))

end Mutator

/-- The spec's symmetry invariant on a neighbor array: every stored
face-edge link is reciprocated. -/
def NbSymmetric (l : List (Option ℕ)) : Prop :=
  ∀ i j, l.getD i none = some j → l.getD j none = some i

/-- Boolean check of `NbSymmetric` (used to decide it on concrete
arrays; entries beyond the length are absent, so the scan is bounded). -/
def nbSymmetricB (l : List (Option ℕ)) : Bool :=
  (List.range l.length).all fun i =>
    match l.getD i none with
    | some j => l.getD j none == some i
    | none => true

namespace NState

/-- The resolution-loop invariant of `findNeighbors` relative to a face
count: candidate symmetry, candidates are still-unconnected edges,
chosen neighbors are mutual, and all candidate keys / stored neighbors /
unconnected entries are valid face-edge positions. -/
structure Inv (fc : ℕ) (s : NState) : Prop where
  candSymm : ∀ p q, q ∈ s.cands p → p ∈ s.cands q
  candOpen : ∀ p q, q ∈ s.cands p → s.nb q = none
  candOwnerOpen : ∀ p q, q ∈ s.cands p → s.nb p = none
  candNeq : ∀ p q, q ∈ s.cands p → q ≠ p
  nbSymm : ∀ p q, s.nb p = some q → s.nb q = some p
  candValid : ∀ p q, q ∈ s.cands p → q % 3 = 0 ∧ q < 9 * fc
  nbValid : ∀ p q, s.nb p = some q → q % 3 = 0 ∧ q < 9 * fc
  unValid : ∀ p ∈ s.unconnected, p % 3 = 0 ∧ p < 9 * fc

end NState

namespace Mutator

/-- Well-formedness used by the split face-count law: the position array
is exactly 9 scalars per face, the neighbor array exactly 3 entries per
face, and every stored neighbor is an existing face-edge index. -/
structure SplitWF (m : Mutator) : Prop where
  posLen : m.positions.length = 9 * m.faceCount
  nbLen : m.neighbors.length = 3 * m.faceCount
  nbRange : ∀ v, some v ∈ m.neighbors → v < 3 * m.faceCount

end Mutator

section Examples

/-- A stand-in for the external `facesAngle` used in concrete runs whose
resolution loops never reach the worst-candidate phase (every connection
below is forced or same-island), so the value is never consulted. -/
def ang0 : ℕ → ℕ → Q := fun _ _ => 0

/-- A stand-in for the external normalize/angleTo pair.  The concrete
runs below only ever inspect whether a (normalized) cross product is the
zero vector, and the identity preserves exactly that observable of the
real `Vector3.normalize`; `angleTo` is never consulted on them. -/
def extJ : ExtGeom := { normalize := fun v => v, angleTo := fun _ _ => 0 }

/-- A lone non-degenerate triangle crossing the plane `x = 1`. -/
def triangleMesh : Mutator :=
  { positions := [0, 0, 0, 2, 0, 0, 0, 2, 0]
    colors := none
    neighbors := []
    reverseIslands := [] }

/-- Two triangles over the same three vertices with opposite windings
(a "pillow": each edge of one face matches an edge of the other in
reverse).  `findNeighbors` resolves it fully: all three connections are
forced. -/
def pillowMesh : Mutator :=
  { positions := [0, 0, 0, 2, 0, 0, 0, 2, 0,
                  2, 0, 0, 0, 0, 0, 0, 2, 0]
    colors := none
    neighbors := []
    reverseIslands := [] }

/-- The plane `x = 1` in point-normal form. -/
def planeX1 : Plane := { normal := ⟨1, 0, 0⟩, constant := -1 }

/-- A lone triangle crossing the plane `x = 1`, with the topology arrays
`findNeighbors` leaves for it: both crossed edges are boundary edges. -/
def boundaryTriangle : Mutator :=
  { positions := [0, 0, 0, 2, 0, 0, 0, 2, 0]
    colors := none
    neighbors := [none, none, none]
    reverseIslands := [some 0] }

/-- A triangle lying entirely in the plane `x = 1`, with its topology
arrays as `findNeighbors` leaves them for a lone triangle. -/
def onPlaneTriangle : Mutator :=
  { positions := [1, 0, 0, 1, 1, 0, 1, 0, 1]
    colors := none
    neighbors := [none, none, none]
    reverseIslands := [some 0] }

/-- A regular tetrahedron with outward windings, together with the
symmetric neighbor array and the single island that `findNeighbors`
produces for it.  Face-edge pairs: (0,11) (1,6) (2,3) (4,8) (5,9)
(7,10). -/
def tetraMesh : Mutator :=
  { positions := [0, 0, 0, 0, 1, 0, 1, 0, 0,
                  0, 0, 0, 1, 0, 0, 0, 0, 1,
                  1, 0, 0, 0, 1, 0, 0, 0, 1,
                  0, 0, 0, 0, 0, 1, 0, 1, 0]
    colors := none
    neighbors := [some 11, some 6, some 3, some 2, some 8, some 9,
                  some 1, some 10, some 4, some 5, some 7, some 0]
    reverseIslands := [some 0, some 0, some 0, some 0] }

/-- A resolution-loop state with open edges but no candidate pair
anywhere: the non-manifold situation of spec step 4d. -/
def stuckState : NState :=
  { cands := fun _ => []
    nb := fun _ => none
    island := fun f => if f = 0 then some 0 else none
    rank := fun _ => 0
    unconnected := [0, 3, 6] }

end Examples

section IndexLemmas

open Mutator

theorem positionFromFaceEdge_eval (f e : ℕ) :
    positionFromFaceEdge f e = 9 * f + 3 * e := by
  simp [positionFromFaceEdge, positionFromFace]; ring

theorem nextPositionInFace_eval (f e : ℕ) (he : e < 3) :
    nextPositionInFace (positionFromFaceEdge f e) =
      positionFromFaceEdge f ((e + 1) % 3) := by
  interval_cases e <;>
    simp [nextPositionInFace, positionFromFaceEdge, positionFromFace,
      faceFromPosition, Nat.mul_add_div, Nat.add_mul_div_left] <;> omega

theorem previousPositionInFace_eval (f e : ℕ) (he : e < 3) :
    previousPositionInFace (positionFromFaceEdge f e) =
      positionFromFaceEdge f ((e + 2) % 3) := by
  interval_cases e <;>
    simp [previousPositionInFace, positionFromFaceEdge, positionFromFace] <;>
    omega

end IndexLemmas

section FoldHelpers

variable {α β γ : Type}

theorem foldl_pair_split (g : α → β → γ → β) (l : List γ) (a : α) (b : β) :
    l.foldl (fun st x => (st.1, g st.1 st.2 x)) (a, b)
      = (a, l.foldl (fun bb x => g a bb x) b) := by
  induction l generalizing b with
  | nil => rfl
  | cons x xs ih => simp [List.foldl_cons, ih]

theorem foldl_fixed (f : α → β → α) (l : List β) (a : α)
    (h : ∀ x ∈ l, f a x = a) : l.foldl f a = a := by
  induction l with
  | nil => rfl
  | cons x xs ih =>
    rw [List.foldl_cons, h x (by simp)]
    exact ih fun y hy => h y (by simp [hy])

theorem foldl_preserve (P : α → Prop) (f : α → β → α) :
    ∀ (l : List β) (a : α), (∀ b x, x ∈ l → P b → P (f b x)) → P a →
      P (l.foldl f a)
  | [], _, _, h0 => h0
  | x :: xs, a, h, h0 =>
    foldl_preserve P f xs (f a x)
      (fun b y hy => h b y (List.mem_cons_of_mem _ hy))
      (h a x (List.mem_cons_self _ _) h0)

end FoldHelpers

section SetAtLemmas

variable {α : Type}

theorem setAt_getD_none (l : List (Option α)) (i f : ℕ) :
    (Mutator.setAt l i none none).getD f none
      = if f = i then none else l.getD f none := by
  unfold Mutator.setAt
  simp only [List.getD_eq_getElem?_getD]
  by_cases hi : i < l.length
  · simp only [hi, if_true, List.getElem?_set]
    by_cases hf : f = i
    · subst hf; simp [hi]
    · have : ¬ i = f := fun h => hf h.symm
      simp [hf, this]
  · simp only [hi, if_false]
    by_cases hf : f = i
    · subst hf
      rw [List.getElem?_append_right (by simp; omega)]
      have hidx : f - (l ++ List.replicate (f - l.length) (none : Option α)).length = 0 := by
        simp; omega
      rw [hidx]
      simp [List.getElem?_eq_none (show l.length ≤ f by omega)]
    · simp only [hf, if_false]
      rcases Nat.lt_or_ge f l.length with h2 | h2
      · rw [List.getElem?_append_left (by simp; omega)]
        rw [List.getElem?_append_left h2]
      · rw [List.getElem?_eq_none h2]
        rcases Nat.lt_or_ge f i with h3 | h3
        · rw [List.getElem?_append_left (by simp; omega)]
          rw [List.getElem?_append_right (by omega)]
          rw [List.getElem?_replicate]
          rw [if_pos (show f - l.length < i - l.length by omega)]
          rfl
        · rw [List.getElem?_eq_none (by simp; omega)]

end SetAtLemmas

namespace Mutator

/-- CLAIM C9.  Frame property of `disconnectAtSplit`: the receiver is
completely unchanged — every read of the marking loop and of the two
`deleteDegenerates` calls goes to the receiver or to the clones, and
every write goes to a clone, so the threaded receiver state that
`disconnectAtSplitT` returns is exactly the input mutator, with all four
arrays intact. -/
theorem disconnectAtSplit_frame (m : Mutator) (pl : Plane) (s : List Vec) :
    (m.disconnectAtSplitT pl s).1 = m :=
  foldl_preserve (fun (st : Mutator × (Mutator × Mutator)) => st.1 = m)
    (fun st f => (st.1, st.1.disconnectMarkStep pl s st.2 f))
    (List.range m.faceCount) (m, (m.clone, m.clone))
    (fun _ _ _ hb => hb) rfl

theorem markStep_snd (m : Mutator) (pl : Plane) (s : List Vec)
    (c : Mutator × Mutator) (g : ℕ) :
    (m.disconnectMarkStep pl s c g).2
      = if ∀ p ∈ positionsFromFace g, m.effectiveDistance pl s p ≤ 0
        then { c.2 with reverseIslands := setAt c.2.reverseIslands g none none }
        else c.2 := by
  unfold disconnectMarkStep
  simp only [positionsFromFace, effectiveDistance, List.map_cons, List.map_nil,
    List.getD_cons_zero, List.getD_cons_succ, List.mem_cons, List.not_mem_nil,
    or_false, forall_eq_or_imp, forall_eq]
  split_ifs <;> rfl

theorem markStep_fst (m : Mutator) (pl : Plane) (s : List Vec)
    (c : Mutator × Mutator) (g : ℕ) :
    (m.disconnectMarkStep pl s c g).1
      = if ∀ p ∈ positionsFromFace g, 0 ≤ m.effectiveDistance pl s p
        then { c.1 with reverseIslands := setAt c.1.reverseIslands g none none }
        else c.1 := by
  unfold disconnectMarkStep
  simp only [positionsFromFace, effectiveDistance, List.map_cons, List.map_nil,
    List.getD_cons_zero, List.getD_cons_succ, List.mem_cons, List.not_mem_nil,
    or_false, forall_eq_or_imp, forall_eq]
  split_ifs <;> rfl

theorem ri_getD_mark (c2 : Mutator) (g f : ℕ) :
    ({ c2 with reverseIslands := setAt c2.reverseIslands g none none }
        : Mutator).reverseIslands.getD f none
      = if f = g then none else c2.reverseIslands.getD f none :=
  setAt_getD_none c2.reverseIslands g f

theorem markFold_snd_getD (m : Mutator) (pl : Plane) (s : List Vec) :
    ∀ (L : List ℕ) (c : Mutator × Mutator) (f : ℕ),
    ((L.foldl (fun cl g => m.disconnectMarkStep pl s cl g) c).2.reverseIslands.getD f none)
      = if f ∈ L ∧ ∀ p ∈ positionsFromFace f, m.effectiveDistance pl s p ≤ 0
        then none else c.2.reverseIslands.getD f none := by
  intro L
  induction L with
  | nil => intro c f; simp
  | cons g L ih =>
    intro c f
    rw [List.foldl_cons, ih]
    by_cases hP : ∀ p ∈ positionsFromFace f, m.effectiveDistance pl s p ≤ 0
    · by_cases hfL : f ∈ L
      · rw [if_pos ⟨hfL, hP⟩, if_pos ⟨List.mem_cons_of_mem g hfL, hP⟩]
      · rw [if_neg (fun h => hfL h.1), markStep_snd]
        by_cases hfg : f = g
        · subst hfg
          rw [if_pos hP, ri_getD_mark, if_pos rfl,
            if_pos ⟨List.mem_cons_self f L, hP⟩]
        · have hmem : f ∉ g :: L := by
            intro h
            rcases List.mem_cons.mp h with h1 | h1
            · exact hfg h1
            · exact hfL h1
          by_cases hPg : ∀ p ∈ positionsFromFace g, m.effectiveDistance pl s p ≤ 0
          · rw [if_pos hPg, ri_getD_mark, if_neg hfg, if_neg (fun h => hmem h.1)]
          · rw [if_neg hPg, if_neg (fun h => hmem h.1)]
    · rw [if_neg (fun h => hP h.2), if_neg (fun h => hP h.2), markStep_snd]
      by_cases hPg : ∀ p ∈ positionsFromFace g, m.effectiveDistance pl s p ≤ 0
      · have hfg : f ≠ g := fun h => hP (h ▸ hPg)
        rw [if_pos hPg, ri_getD_mark, if_neg hfg]
      · rw [if_neg hPg]

theorem markFold_fst_getD (m : Mutator) (pl : Plane) (s : List Vec) :
    ∀ (L : List ℕ) (c : Mutator × Mutator) (f : ℕ),
    ((L.foldl (fun cl g => m.disconnectMarkStep pl s cl g) c).1.reverseIslands.getD f none)
      = if f ∈ L ∧ ∀ p ∈ positionsFromFace f, 0 ≤ m.effectiveDistance pl s p
        then none else c.1.reverseIslands.getD f none := by
  intro L
  induction L with
  | nil => intro c f; simp
  | cons g L ih =>
    intro c f
    rw [List.foldl_cons, ih]
    by_cases hP : ∀ p ∈ positionsFromFace f, 0 ≤ m.effectiveDistance pl s p
    · by_cases hfL : f ∈ L
      · rw [if_pos ⟨hfL, hP⟩, if_pos ⟨List.mem_cons_of_mem g hfL, hP⟩]
      · rw [if_neg (fun h => hfL h.1), markStep_fst]
        by_cases hfg : f = g
        · subst hfg
          rw [if_pos hP, ri_getD_mark, if_pos rfl,
            if_pos ⟨List.mem_cons_self f L, hP⟩]
        · have hmem : f ∉ g :: L := by
            intro h
            rcases List.mem_cons.mp h with h1 | h1
            · exact hfg h1
            · exact hfL h1
          by_cases hPg : ∀ p ∈ positionsFromFace g, 0 ≤ m.effectiveDistance pl s p
          · rw [if_pos hPg, ri_getD_mark, if_neg hfg, if_neg (fun h => hmem h.1)]
          · rw [if_neg hPg, if_neg (fun h => hmem h.1)]
    · rw [if_neg (fun h => hP h.2), if_neg (fun h => hP h.2), markStep_fst]
      by_cases hPg : ∀ p ∈ positionsFromFace g, 0 ≤ m.effectiveDistance pl s p
      · have hfg : f ≠ g := fun h => hP (h ▸ hPg)
        rw [if_pos hPg, ri_getD_mark, if_neg hfg]
      · rw [if_neg hPg]

theorem disconnectMarks_eq (m : Mutator) (pl : Plane) (s : List Vec) :
    m.disconnectMarks pl s
      = (List.range m.faceCount).foldl
          (fun cl g => m.disconnectMarkStep pl s cl g) (m, m) :=
  congrArg Prod.snd
    (foldl_pair_split (fun a b x => Mutator.disconnectMarkStep a pl s b x)
      (List.range m.faceCount) m (m.clone, m.clone))

/-- CLAIM C4 (amended).  The marking rule of `disconnectAtSplit`: a face
is marked absent in the positive-side clone iff it was already absent or
all three of its effective distances (splitPositions keys counting as 0)
are ≤ 0, and symmetrically (≥ 0) for the negative-side clone.  In
particular a face lying entirely on the plane (all distances 0) is
removed from both clones, and a face straddling the plane survives in
both. -/
theorem disconnectAtSplit_marking (m : Mutator) (pl : Plane) (s : List Vec)
    (f : ℕ) (hf : f < m.faceCount) :
    ((m.disconnectMarks pl s).2.reverseIslands.getD f none = none ↔
      (m.reverseIslands.getD f none = none ∨
        ∀ p ∈ positionsFromFace f, m.effectiveDistance pl s p ≤ 0))
  ∧ ((m.disconnectMarks pl s).1.reverseIslands.getD f none = none ↔
      (m.reverseIslands.getD f none = none ∨
        ∀ p ∈ positionsFromFace f, 0 ≤ m.effectiveDistance pl s p)) := by
  rw [disconnectMarks_eq, markFold_snd_getD, markFold_fst_getD]
  have hmem : f ∈ List.range m.faceCount := List.mem_range.mpr hf
  constructor
  · by_cases hP : ∀ p ∈ positionsFromFace f, m.effectiveDistance pl s p ≤ 0
    · rw [if_pos ⟨hmem, hP⟩]
      exact ⟨fun _ => Or.inr hP, fun _ => rfl⟩
    · rw [if_neg (fun h => hP h.2)]
      constructor
      · exact fun h => Or.inl h
      · rintro (h | h)
        · exact h
        · exact absurd h hP
  · by_cases hP : ∀ p ∈ positionsFromFace f, 0 ≤ m.effectiveDistance pl s p
    · rw [if_pos ⟨hmem, hP⟩]
      exact ⟨fun _ => Or.inr hP, fun _ => rfl⟩
    · rw [if_neg (fun h => hP h.2)]
      constructor
      · exact fun h => Or.inl h
      · rintro (h | h)
        · exact h
        · exact absurd h hP

/-- CLAIM C4 (counterexample).  A triangle lying entirely on the split
plane does not survive in either clone: `disconnectAtSplit` marks it
absent on both sides (all effective distances are simultaneously ≤ 0 and
≥ 0) and both compacted clones come back empty — contradicting the
claim's "every face lying entirely on the split plane survives in both
clones". -/
theorem disconnectAtSplit_onplane_deleted :
    (onPlaneTriangle.disconnectAtSplit planeX1 []).1.positions = []
  ∧ (onPlaneTriangle.disconnectAtSplit planeX1 []).2.positions = []
  ∧ (onPlaneTriangle.disconnectMarks planeX1 []).1.reverseIslands = [none]
  ∧ (onPlaneTriangle.disconnectMarks planeX1 []).2.reverseIslands = [none] := by
  decide

/-- Witness for `disconnectAtSplit_marking` at the concrete on-plane
triangle and face 0. -/
theorem disconnectAtSplit_marking_witness :
    ((onPlaneTriangle.disconnectMarks planeX1 []).2.reverseIslands.getD 0 none = none ↔
      (onPlaneTriangle.reverseIslands.getD 0 none = none ∨
        ∀ p ∈ positionsFromFace 0, onPlaneTriangle.effectiveDistance planeX1 [] p ≤ 0))
  ∧ ((onPlaneTriangle.disconnectMarks planeX1 []).1.reverseIslands.getD 0 none = none ↔
      (onPlaneTriangle.reverseIslands.getD 0 none = none ∨
        ∀ p ∈ positionsFromFace 0, 0 ≤ onPlaneTriangle.effectiveDistance planeX1 [] p)) :=
  disconnectAtSplit_marking onPlaneTriangle planeX1 [] 0 (by decide)

end Mutator

namespace Q

theorem den_ratpos (a : Q) : (0 : ℚ) < (a.den : ℚ) := by
  exact_mod_cast a.dpos

theorem toRat_le (a b : Q) : a ≤ b ↔ a.toRat ≤ b.toRat := by
  show a.le b ↔ _
  unfold le toRat
  rw [div_le_div_iff (den_ratpos a) (den_ratpos b)]
  exact_mod_cast Iff.rfl

theorem toRat_lt (a b : Q) : a < b ↔ a.toRat < b.toRat := by
  show a.lt b ↔ _
  unfold lt toRat
  rw [div_lt_div_iff (den_ratpos a) (den_ratpos b)]
  exact_mod_cast Iff.rfl

theorem toRat_qeq (a b : Q) : qeq a b ↔ a.toRat = b.toRat := by
  unfold qeq toRat
  rw [div_eq_div_iff (ne_of_gt (den_ratpos a)) (ne_of_gt (den_ratpos b))]
  exact_mod_cast Iff.rfl

theorem toRat_sub (a b : Q) : (a - b).toRat = a.toRat - b.toRat := by
  show (sub a b).toRat = _
  unfold sub add neg toRat
  have ha := ne_of_gt (den_ratpos a)
  have hb := ne_of_gt (den_ratpos b)
  push_cast
  field_simp
  ring

theorem toRat_qabs (a : Q) : (qabs a).toRat = |a.toRat| := by
  unfold qabs
  by_cases h : a.num < 0
  · have : a.toRat < 0 := by
      unfold toRat
      apply div_neg_of_neg_of_pos _ (den_ratpos a)
      exact_mod_cast h
    rw [if_pos h, abs_of_neg this]
    unfold toRat
    push_cast
    ring
  · have : 0 ≤ a.toRat := by
      unfold toRat
      apply div_nonneg _ (le_of_lt (den_ratpos a))
      exact_mod_cast not_lt.mp h
    rw [if_neg h, abs_of_nonneg this]

end Q

section WorstCandidate

theorem worstStep_some (w cand : ℕ × ℕ × Q) :
    worstStep (some w) cand
      = if (Q.qabs (piQ - w.2.2) > piQ - epsQ ∧
              Q.qabs (piQ - cand.2.2) ≥ Q.qabs (piQ - w.2.2)) ∨
           (¬ Q.qabs (piQ - w.2.2) > piQ - epsQ ∧ cand.2.2 > w.2.2)
        then some cand else some w := rfl

theorem worstCandidate_fold_from_some (l : List (ℕ × ℕ × Q)) :
    ∀ (w : ℕ × ℕ × Q), (∀ x ∈ l, NonSliver x.2.2) → NonSliver w.2.2 →
    ∃ w2, l.foldl worstStep (some w) = some w2
      ∧ (w2 = w ∨ w2 ∈ l) ∧ w.2.2 ≤ w2.2.2 ∧ (∀ x ∈ l, x.2.2 ≤ w2.2.2)
      ∧ NonSliver w2.2.2 := by
  induction l with
  | nil =>
    intro w _ hw
    exact ⟨w, rfl, Or.inl rfl, (Q.toRat_le _ _).mpr le_rfl, by simp, hw⟩
  | cons y ys ih =>
    intro w hns hw
    have hnotgt : ¬ Q.qabs (piQ - w.2.2) > piQ - epsQ := by
      unfold NonSliver at hw
      rw [gt_iff_lt, Q.toRat_lt]
      rw [Q.toRat_le] at hw
      exact not_lt.mpr hw
    have hy : NonSliver y.2.2 := hns y (List.mem_cons_self _ _)
    rw [List.foldl_cons, worstStep_some]
    by_cases hgt : y.2.2 > w.2.2
    · rw [if_pos (Or.inr ⟨hnotgt, hgt⟩)]
      obtain ⟨w2, heq, hmem, hle, hall, hns2⟩ :=
        ih y (fun x hx => hns x (List.mem_cons_of_mem _ hx)) hy
      refine ⟨w2, heq, ?_, ?_, ?_, hns2⟩
      · rcases hmem with h | h
        · exact Or.inr (h ▸ List.mem_cons_self _ _)
        · exact Or.inr (List.mem_cons_of_mem _ h)
      · rw [Q.toRat_le]
        rw [Q.toRat_le] at hle
        rw [gt_iff_lt, Q.toRat_lt] at hgt
        exact le_trans (le_of_lt hgt) hle
      · intro x hx
        rcases List.mem_cons.mp hx with h | h
        · exact h ▸ hle
        · exact hall x h
    · rw [if_neg ?hc]
      case hc =>
        rintro (⟨h1, _⟩ | ⟨_, h2⟩)
        · exact hnotgt h1
        · exact hgt h2
      obtain ⟨w2, heq, hmem, hle, hall, hns2⟩ :=
        ih w (fun x hx => hns x (List.mem_cons_of_mem _ hx)) hw
      refine ⟨w2, heq, ?_, hle, ?_, hns2⟩
      · rcases hmem with h | h
        · exact Or.inl h
        · exact Or.inr (List.mem_cons_of_mem _ h)
      · intro x hx
        rcases List.mem_cons.mp hx with h | h
        · subst h
          rw [Q.toRat_le]
          rw [gt_iff_lt, Q.toRat_lt, not_lt] at hgt
          rw [Q.toRat_le] at hle
          exact le_trans hgt hle
        · exact hall x h

/-- CLAIM C5 (amended).  When no candidate's dihedral angle lies within
EPSILON of 0 or of 2π, the pair that the scan of part_003 lines 361-387
selects for removal is one holding the globally **largest** angle — not
the angle closest to 0 or 2π.  (Slivers near 0 or 2π are preferred only
once the running worst is itself such a sliver; see the counterexample
for the failure of the claim as stated.) -/
theorem worstCandidate_largest_angle (l : List (ℕ × ℕ × Q))
    (hne : l ≠ []) (hns : ∀ x ∈ l, NonSliver x.2.2) :
    ∃ w, worstCandidate l = some w ∧ w ∈ l ∧ ∀ x ∈ l, x.2.2 ≤ w.2.2 := by
  match l, hne with
  | x :: xs, _ =>
    obtain ⟨w2, heq, hmem, hle, hall, _⟩ :=
      worstCandidate_fold_from_some xs x
        (fun y hy => hns y (List.mem_cons_of_mem _ hy))
        (hns x (List.mem_cons_self _ _))
    refine ⟨w2, heq, ?_, ?_⟩
    · rcases hmem with h | h
      · exact h ▸ List.mem_cons_self _ _
      · exact List.mem_cons_of_mem _ h
    · intro y hy
      rcases List.mem_cons.mp hy with h | h
      · exact h ▸ hle
      · exact hall y h

/-- CLAIM C5 (counterexample).  With the open candidates carrying angles
4 and 1/2000, the angle 1/2000 is strictly closer to 0-or-2π (distance
1/2000 versus 2π − 4), yet the scan discards the pair with angle 4: once
the running worst is not a sliver, the code compares raw angles, so a
later candidate arbitrarily close to 0 is never selected.  The claim's
"the pair whose interior dihedral angle is closest to 0 or 2π" is false
of the code. -/
theorem worstCandidate_not_closest_counterexample :
    worstCandidate [(0, 5, (4 : Q)), (3, 8, (1 : Q) / 2000)] = some (0, 5, 4)
  ∧ distToSliver ((1 : Q) / 2000) < distToSliver 4 := by
  decide

/-- Witness for `worstCandidate_largest_angle` on a concrete two-element
candidate list with angles 4 and 3 (both within the non-sliver band). -/
theorem worstCandidate_largest_angle_witness :
    ∃ w, worstCandidate [(0, 5, (4 : Q)), (1, 7, (3 : Q))] = some w
      ∧ w ∈ [(0, 5, (4 : Q)), (1, 7, (3 : Q))]
      ∧ ∀ x ∈ [(0, 5, (4 : Q)), (1, 7, (3 : Q))], x.2.2 ≤ w.2.2 :=
  worstCandidate_largest_angle _ (by decide) (by decide)

end WorstCandidate

section NonManifoldFailure

open Mutator NState

theorem phase1_no_cands (fc : ℕ) (s : NState)
    (h : ∀ p, s.cands p = []) : phase1 fc s = (s, false) := by
  unfold phase1
  apply foldl_fixed
  intro x _
  simp [h]

theorem phase2_no_cands (fc : ℕ) (s : NState)
    (h : ∀ p, s.cands p = []) : phase2 fc s = (s, false) := by
  unfold phase2
  apply foldl_fixed
  intro x _
  simp [h]

theorem phase3Cands_no_cands (ang : ℕ → ℕ → Q) (s : NState)
    (h : ∀ p, s.cands p = []) : phase3Cands ang s = [] := by
  unfold phase3Cands
  generalize s.unconnected = l
  induction l with
  | nil => rfl
  | cons x xs ih => simp [h, ih]

/-- CLAIM C2 (amended).  When the resolution loop reaches a state with
open edges remaining and no candidate pair anywhere, the strict variant
(`ConnectedSTL.findNeighbors`, part_000) returns failure, and its
`fromBufferGeometry` propagates the failure as a `null` result.  (The
mutator variant instead breaks out and reports success; see the
counterexample.) -/
theorem findNeighborsC_stuck_fails :
    (∀ (ang : ℕ → ℕ → Q) (fc fuel : ℕ) (s : NState),
      s.unconnected ≠ [] → (∀ p, s.cands p = []) →
      NState.loopC ang fc (fuel + 1) s = none)
  ∧ (∀ (ext : ExtGeom) (ang : ℕ → ℕ → Q) (fuel : ℕ) (ps : List Q),
      Mutator.findNeighborsC ang
        { positions := ps, colors := none, neighbors := [], reverseIslands := [] }
        = none →
      fromBufferGeometryC ext ang fuel ps = none) := by
  constructor
  · intro ang fc fuel s hne hcands
    have h1 := phase1_no_cands fc s hcands
    have h2 := phase2_no_cands fc s hcands
    have h3 := phase3Cands_no_cands ang s hcands
    simp [NState.loopC, loopBody, h1, h2, h3, hne, worstCandidate]
  · intro ext ang fuel ps hfail
    simp only [Mutator.fromBufferGeometryC, hfail]

/-- CLAIM C2 (counterexample).  On a lone triangle every edge is open
and no candidate exists, so the resolution loop is immediately in the
non-manifold situation of step 4d — yet `BufferGeometryMutator.findNeighbors`
(part_003) `break`s, reports success, and `fromBufferGeometry` returns
the mutator with a partially-built topology (all three neighbor slots
left as absence markers) instead of a failure value.  The strict
ConnectedSTL variant on the same input does fail. -/
theorem fromBufferGeometryM_returns_partial_topology :
    fromBufferGeometryM ang0 triangleMesh.positions none
      = some { positions := triangleMesh.positions, colors := none,
               neighbors := [none, none, none], reverseIslands := [some 0] }
  ∧ (Mutator.findNeighborsM ang0 triangleMesh).2 = true
  ∧ (Mutator.findNeighborsM ang0 triangleMesh).1.neighbors.getD 0 none = none
  ∧ Mutator.findNeighborsC ang0 triangleMesh = none := by
  decide

/-- Witness for `findNeighborsC_stuck_fails`: the concrete stuck state
(three open edges, no candidates) makes the strict loop fail, and the
lone triangle makes the strict `fromBufferGeometry` return the failure
value. -/
theorem findNeighborsC_stuck_fails_witness :
    NState.loopC ang0 1 (4 + 1) stuckState = none
  ∧ fromBufferGeometryC extJ ang0 7 triangleMesh.positions = none :=
  ⟨findNeighborsC_stuck_fails.1 ang0 1 4 stuckState (by decide) (fun _ => rfl),
   findNeighborsC_stuck_fails.2 extJ ang0 7 triangleMesh.positions (by decide)⟩

end NonManifoldFailure

section ChunkLemmas

variable {α β : Type}

theorem take_add_chunk : ∀ (m : ℕ) (l : List α) (n : ℕ),
    l.take (m + n) = l.take m ++ (l.drop m).take n
  | 0, l, n => by simp
  | m + 1, [], n => by simp
  | m + 1, x :: xs, n => by
    rw [List.drop_succ_cons, List.take_succ_cons,
        show m + 1 + n = (m + n) + 1 by omega, List.take_succ_cons,
        take_add_chunk m xs n]
    rfl

theorem flatMap_length_eq_const (F : α → List β) (k : ℕ) :
    ∀ L : List α, (∀ x ∈ L, (F x).length = k) → (L.flatMap F).length = k * L.length
  | [], _ => by simp
  | x :: xs, h => by
    rw [List.flatMap_cons, List.length_append, h x (by simp),
        flatMap_length_eq_const F k xs (fun y hy => h y (by simp [hy])),
        List.length_cons]
    ring

theorem flatMap_length_le_const (F : α → List β) (k : ℕ) :
    ∀ L : List α, (∀ x ∈ L, (F x).length ≤ k) → (L.flatMap F).length ≤ k * L.length
  | [], _ => by simp
  | x :: xs, h => by
    rw [List.flatMap_cons, List.length_append, List.length_cons]
    have h1 := h x (by simp)
    have h2 := flatMap_length_le_const F k xs (fun y hy => h y (by simp [hy]))
    calc (F x).length + (xs.flatMap F).length
        ≤ k + k * xs.length := by omega
      _ = k * (xs.length + 1) := by ring

theorem flatMap_range_chunk (l : List α) :
    ∀ n : ℕ, ((List.range n).flatMap fun g => (l.drop (9 * g)).take 9) = l.take (9 * n)
  | 0 => by simp
  | n + 1 => by
    rw [List.range_succ, List.flatMap_append, flatMap_range_chunk l n]
    simp only [List.flatMap_cons, List.flatMap_nil, List.append_nil]
    rw [show 9 * (n + 1) = 9 * n + 9 by ring, take_add_chunk]

theorem flatMap_range3_getElem (F : ℕ → ℕ → α) :
    ∀ (ks : List ℕ) (i r : ℕ), i < ks.length → r < 3 →
      (ks.flatMap fun f => (List.range 3).map fun e => F f e)[3 * i + r]?
        = some (F (ks.getD i 0) r)
  | [], i, r, hi, _ => absurd hi (by simp)
  | k :: ks, 0, r, _, hr => by
    rw [List.flatMap_cons,
        List.getElem?_append_left (by simp; omega),
        List.getElem?_map, List.getElem?_range (show 3 * 0 + r < 3 by omega)]
    simp
  | k :: ks, i + 1, r, hi, hr => by
    rw [List.flatMap_cons,
        List.getElem?_append_right (by simp; omega)]
    have h3 : 3 * (i + 1) + r - ((List.range 3).map fun e => F k e).length
        = 3 * i + r := by
      simp only [List.length_map, List.length_range]; omega
    rw [h3, flatMap_range3_getElem F ks i r (by simpa using hi) hr]
    rfl

theorem range_getD (n j : ℕ) (h : j < n) : (List.range n).getD j 0 = j := by
  rw [List.getD_eq_getElem?_getD, List.getElem?_range h]
  rfl

theorem indexOf_range : ∀ n g : ℕ, g < n → (List.range n).indexOf g = g
  | 0, _, h => absurd h (by omega)
  | n + 1, g, h => by
    rw [List.range_succ]
    rcases Nat.lt_or_ge g n with h2 | h2
    · rw [List.indexOf_append_of_mem (by simpa using h2)]
      exact indexOf_range n g h2
    · have hg : g = n := by omega
      subst hg
      rw [List.indexOf_append_of_not_mem (by simp)]
      simp

theorem range_filter_eq_self (p : ℕ → Bool) (n : ℕ) (h : ∀ i, i < n → p i = true) :
    (List.range n).filter p = List.range n := by
  rw [List.filter_eq_self]
  intro a ha
  exact h a (by simpa using ha)

theorem map_range_getD (l : List α) (d : α) :
    ((List.range l.length).map fun i => l.getD i d) = l := by
  apply List.ext_getElem?
  intro i
  rcases Nat.lt_or_ge i l.length with hi | hi
  · rw [List.getElem?_map, List.getElem?_range hi, List.getElem?_eq_getElem hi]
    simp [List.getD_eq_getElem?_getD, List.getElem?_eq_getElem hi]
  · rw [List.getElem?_eq_none (by simpa using hi), List.getElem?_eq_none hi]

theorem flatMap_range3_reassemble (l : List α) (d : α) (n : ℕ) (hl : l.length = 3 * n) :
    ((List.range n).flatMap fun g => (List.range 3).map fun e => l.getD (3 * g + e) d)
      = l := by
  apply List.ext_getElem?
  intro i
  rcases Nat.lt_or_ge i (3 * n) with hi | hi
  · have h1 : i / 3 < n := by omega
    have h3 : 3 * (i / 3) + i % 3 = i := by omega
    rw [← h3,
        flatMap_range3_getElem (fun g e => l.getD (3 * g + e) d) (List.range n)
          (i / 3) (i % 3) (by simpa using h1) (by omega),
        range_getD n (i / 3) h1, h3,
        List.getElem?_eq_getElem (show i < l.length by omega)]
    simp [List.getD_eq_getElem?_getD, List.getElem?_eq_getElem (show i < l.length by omega)]
  · have hlen : ((List.range n).flatMap fun g =>
        (List.range 3).map fun e => l.getD (3 * g + e) d).length = 3 * n := by
      have hl2 := flatMap_length_eq_const
        (fun g => (List.range 3).map fun e => l.getD (3 * g + e) d) 3
        (List.range n) (fun x _ => by simp)
      simpa using hl2
    have e1 : ((List.range n).flatMap fun g =>
        (List.range 3).map fun e => l.getD (3 * g + e) d)[i]? = none :=
      List.getElem?_eq_none (by rw [hlen]; omega)
    have e2 : l[i]? = none := List.getElem?_eq_none (by omega)
    rw [e1, e2]

end ChunkLemmas

namespace Mutator

theorem keptFaces_mem_iff (m : Mutator) (f : ℕ) :
    f ∈ keptFaces m
      ↔ f < m.faceCount ∧ (m.reverseIslands.getD f none).isSome = true := by
  unfold keptFaces
  simp [List.mem_filter, List.mem_range]

theorem keptFaces_chunk9 (m : Mutator) :
    ∀ f ∈ keptFaces m, ((m.positions.drop (9 * f)).take 9).length = 9 := by
  intro f hf
  have h1 := ((keptFaces_mem_iff m f).1 hf).1
  unfold faceCount at h1
  simp only [List.length_take, List.length_drop]
  omega

theorem dd_positions_def (m : Mutator) :
    (deleteDegenerates m).positions
      = (keptFaces m).flatMap fun f => (m.positions.drop (9 * f)).take 9 := rfl

theorem dd_colors_def (m : Mutator) :
    (deleteDegenerates m).colors
      = m.colors.map fun cs => (keptFaces m).flatMap fun f => (cs.drop (9 * f)).take 9 := rfl

theorem dd_reverseIslands_def (m : Mutator) :
    (deleteDegenerates m).reverseIslands
      = (keptFaces m).map fun f => m.reverseIslands.getD f none := rfl

theorem dd_neighbors_def (m : Mutator) :
    (deleteDegenerates m).neighbors
      = (keptFaces m).flatMap fun f => (List.range 3).map fun e =>
          remapNeighborEntry m (m.neighbors.getD (3 * f + e) none) := rfl

theorem dd_positions_length (m : Mutator) :
    (deleteDegenerates m).positions.length = 9 * (keptFaces m).length := by
  rw [dd_positions_def]
  exact flatMap_length_eq_const _ 9 _ (keptFaces_chunk9 m)

theorem dd_faceCount (m : Mutator) :
    (deleteDegenerates m).faceCount = (keptFaces m).length := by
  unfold faceCount
  rw [dd_positions_length]
  omega

theorem dd_neighbors_length (m : Mutator) :
    (deleteDegenerates m).neighbors.length = 3 * (keptFaces m).length := by
  rw [dd_neighbors_def]
  exact flatMap_length_eq_const _ 3 _ (fun x _ => by simp)

theorem dd_reverseIslands_getD (m : Mutator) (g : ℕ) (hg : g < (keptFaces m).length) :
    (deleteDegenerates m).reverseIslands.getD g none
      = m.reverseIslands.getD ((keptFaces m).getD g 0) none := by
  rw [dd_reverseIslands_def, List.getD_eq_getElem?_getD, List.getElem?_map,
      List.getElem?_eq_getElem hg]
  simp [List.getD_eq_getElem?_getD, List.getElem?_eq_getElem hg]

theorem keptFaces_getD_mem (m : Mutator) (g : ℕ) (hg : g < (keptFaces m).length) :
    (keptFaces m).getD g 0 ∈ keptFaces m := by
  rw [List.getD_eq_getElem?_getD, List.getElem?_eq_getElem hg]
  exact List.getElem_mem hg

theorem keptFaces_dd (m : Mutator) :
    keptFaces (deleteDegenerates m) = List.range (keptFaces m).length := by
  rw [keptFaces, dd_faceCount]
  apply range_filter_eq_self
  intro i hi
  rw [dd_reverseIslands_getD m i hi]
  exact ((keptFaces_mem_iff m _).1 (keptFaces_getD_mem m i hi)).2

theorem newFaceIndex_dd (m : Mutator) (g : ℕ) (hg : g < (keptFaces m).length) :
    (deleteDegenerates m).newFaceIndex g = some g := by
  have h1 : ((deleteDegenerates m).reverseIslands.getD g none).isSome = true := by
    rw [dd_reverseIslands_getD m g hg]
    exact ((keptFaces_mem_iff m _).1 (keptFaces_getD_mem m g hg)).2
  have h2 : g < (deleteDegenerates m).faceCount := by
    rw [dd_faceCount]; exact hg
  unfold newFaceIndex
  rw [if_pos ⟨h1, h2⟩, keptFaces_dd, indexOf_range _ g hg]

theorem newFaceIndex_lt (m : Mutator) (f k : ℕ) (h : m.newFaceIndex f = some k) :
    k < (keptFaces m).length ∧ (keptFaces m).getD k 0 = f := by
  unfold newFaceIndex at h
  split at h
  next hc =>
    have hk : (keptFaces m).indexOf f = k := by
      rw [Option.some.injEq] at h
      exact h
    have hmem : f ∈ keptFaces m := (keptFaces_mem_iff m f).2 ⟨hc.2, hc.1⟩
    have hlt : (keptFaces m).indexOf f < (keptFaces m).length :=
      List.indexOf_lt_length.2 hmem
    subst hk
    refine ⟨hlt, ?_⟩
    rw [List.getD_eq_getElem?_getD, List.getElem?_eq_getElem hlt]
    simp [List.getElem_indexOf hlt]
  next => exact absurd h (by simp)

theorem dd_neighbors_getD (m : Mutator) (i r : ℕ)
    (hi : i < (keptFaces m).length) (hr : r < 3) :
    (deleteDegenerates m).neighbors.getD (3 * i + r) none
      = remapNeighborEntry m
          (m.neighbors.getD (3 * ((keptFaces m).getD i 0) + r) none) := by
  rw [dd_neighbors_def, List.getD_eq_getElem?_getD,
      flatMap_range3_getElem
        (fun f e => remapNeighborEntry m (m.neighbors.getD (3 * f + e) none))
        (keptFaces m) i r hi hr]
  rfl

theorem remap_dd_entry (m : Mutator) (i : ℕ) :
    remapNeighborEntry (deleteDegenerates m)
        ((deleteDegenerates m).neighbors.getD i none)
      = (deleteDegenerates m).neighbors.getD i none := by
  rcases Nat.lt_or_ge i (3 * (keptFaces m).length) with hi | hi
  · have h7 := dd_neighbors_getD m (i / 3) (i % 3) (by omega) (by omega)
    rw [show 3 * (i / 3) + i % 3 = i from by omega] at h7
    rw [h7]
    cases hv : m.neighbors.getD (3 * ((keptFaces m).getD (i / 3) 0) + i % 3) none with
    | none => rfl
    | some nn =>
      have hred : remapNeighborEntry m (some nn)
          = match m.newFaceIndex (nn / 3) with
            | some nf => some (3 * nf + nn % 3)
            | none => none := rfl
      rw [hred]
      cases hw : m.newFaceIndex (nn / 3) with
      | none => rfl
      | some nf =>
        have hlt := (newFaceIndex_lt m (nn / 3) nf hw).1
        show remapNeighborEntry (deleteDegenerates m) (some (3 * nf + nn % 3))
          = some (3 * nf + nn % 3)
        have hred2 : remapNeighborEntry (deleteDegenerates m) (some (3 * nf + nn % 3))
            = match (deleteDegenerates m).newFaceIndex ((3 * nf + nn % 3) / 3) with
              | some nf2 => some (3 * nf2 + (3 * nf + nn % 3) % 3)
              | none => none := rfl
        rw [hred2, show (3 * nf + nn % 3) / 3 = nf from by omega,
            newFaceIndex_dd m nf hlt]
        show some (3 * nf + (3 * nf + nn % 3) % 3) = some (3 * nf + nn % 3)
        congr 1
        omega
  · have hnone : (deleteDegenerates m).neighbors.getD i none = none := by
      rw [List.getD_eq_getElem?_getD,
          List.getElem?_eq_none
            (show (deleteDegenerates m).neighbors.length ≤ i by
              rw [dd_neighbors_length]; omega)]
      rfl
    rw [hnone]
    rfl

theorem mutator_eq_of_fields (a b : Mutator)
    (hp : a.positions = b.positions) (hc : a.colors = b.colors)
    (hn : a.neighbors = b.neighbors) (hr : a.reverseIslands = b.reverseIslands) :
    a = b := by
  cases a; cases b
  simp_all

/-- CLAIM C6.  `deleteDegenerates` is idempotent — a second run removes no
further faces and leaves all four arrays exactly as the first run left
them — and neighbor-preserving: every symmetric neighbor link between two
surviving faces is carried to the compacted arrays at the remapped
face-edge indices (`newFaceIndex`), in both directions. -/
theorem deleteDegenerates_idempotent_preserving (m : Mutator) :
    Mutator.deleteDegenerates (Mutator.deleteDegenerates m)
        = Mutator.deleteDegenerates m
  ∧ ∀ e f ke kf : ℕ,
      m.neighbors.getD e none = some f →
      m.neighbors.getD f none = some e →
      m.newFaceIndex (e / 3) = some ke →
      m.newFaceIndex (f / 3) = some kf →
      (Mutator.deleteDegenerates m).neighbors.getD (3 * ke + e % 3) none
          = some (3 * kf + f % 3)
        ∧ (Mutator.deleteDegenerates m).neighbors.getD (3 * kf + f % 3) none
          = some (3 * ke + e % 3) := by
  constructor
  · have hkd := keptFaces_dd m
    have hpos : (Mutator.deleteDegenerates (Mutator.deleteDegenerates m)).positions
        = (Mutator.deleteDegenerates m).positions := by
      rw [dd_positions_def (Mutator.deleteDegenerates m), hkd, flatMap_range_chunk,
          ← dd_positions_length m]
      exact List.take_length _
    have hcol : (Mutator.deleteDegenerates (Mutator.deleteDegenerates m)).colors
        = (Mutator.deleteDegenerates m).colors := by
      rw [dd_colors_def (Mutator.deleteDegenerates m), hkd, dd_colors_def m]
      cases m.colors with
      | none => rfl
      | some cs =>
        show some ((List.range (keptFaces m).length).flatMap fun g =>
            ((((keptFaces m).flatMap fun f => (cs.drop (9 * f)).take 9).drop (9 * g)).take 9))
          = some ((keptFaces m).flatMap fun f => (cs.drop (9 * f)).take 9)
        rw [flatMap_range_chunk]
        congr 1
        exact List.take_of_length_le
          (flatMap_length_le_const _ 9 _
            (fun x _ => by simp only [List.length_take, List.length_drop]; omega))
    have hri : (Mutator.deleteDegenerates (Mutator.deleteDegenerates m)).reverseIslands
        = (Mutator.deleteDegenerates m).reverseIslands := by
      rw [dd_reverseIslands_def (Mutator.deleteDegenerates m), hkd]
      have hlen : (Mutator.deleteDegenerates m).reverseIslands.length
          = (keptFaces m).length := by
        rw [dd_reverseIslands_def m]
        simp
      rw [← hlen]
      exact map_range_getD _ _
    have hnb : (Mutator.deleteDegenerates (Mutator.deleteDegenerates m)).neighbors
        = (Mutator.deleteDegenerates m).neighbors := by
      rw [dd_neighbors_def (Mutator.deleteDegenerates m), hkd]
      have hfun : ∀ g e : ℕ,
          remapNeighborEntry (Mutator.deleteDegenerates m)
              ((Mutator.deleteDegenerates m).neighbors.getD (3 * g + e) none)
            = (Mutator.deleteDegenerates m).neighbors.getD (3 * g + e) none :=
        fun g e => remap_dd_entry m (3 * g + e)
      simp only [hfun]
      exact flatMap_range3_reassemble _ none _ (dd_neighbors_length m)
    exact mutator_eq_of_fields _ _ hpos hcol hnb hri
  · intro e f ke kf he hf hke hkf
    obtain ⟨hke_lt, hke_at⟩ := newFaceIndex_lt m (e / 3) ke hke
    obtain ⟨hkf_lt, hkf_at⟩ := newFaceIndex_lt m (f / 3) kf hkf
    constructor
    · rw [dd_neighbors_getD m ke (e % 3) hke_lt (by omega), hke_at,
          show 3 * (e / 3) + e % 3 = e from by omega, he]
      have hred : remapNeighborEntry m (some f)
          = match m.newFaceIndex (f / 3) with
            | some nf => some (3 * nf + f % 3)
            | none => none := rfl
      rw [hred, hkf]
    · rw [dd_neighbors_getD m kf (f % 3) hkf_lt (by omega), hkf_at,
          show 3 * (f / 3) + f % 3 = f from by omega, hf]
      have hred : remapNeighborEntry m (some e)
          = match m.newFaceIndex (e / 3) with
            | some nf => some (3 * nf + e % 3)
            | none => none := rfl
      rw [hred, hke]

end Mutator

theorem Q.toRat_add (a b : Q) : (a + b).toRat = a.toRat + b.toRat := by
  show (Q.add a b).toRat = _
  unfold Q.add Q.toRat
  have ha := ne_of_gt (Q.den_ratpos a)
  have hb := ne_of_gt (Q.den_ratpos b)
  push_cast
  field_simp

namespace Mutator

theorem face_prev (n : ℕ) :
    faceFromPosition (previousPositionInFace n) = faceFromPosition n := by
  unfold faceFromPosition previousPositionInFace
  split <;> omega

theorem face_next (q : ℕ) :
    faceFromPosition (nextPositionInFace q) = faceFromPosition q := by
  unfold nextPositionInFace
  unfold faceFromPosition
  omega

theorem next_prev (n : ℕ) (h3 : n % 3 = 0) :
    nextPositionInFace (previousPositionInFace n) = n := by
  unfold nextPositionInFace previousPositionInFace faceFromPosition
  split <;> omega

theorem prev_next (q : ℕ) (h3 : q % 3 = 0) :
    previousPositionInFace (nextPositionInFace q) = q := by
  unfold previousPositionInFace nextPositionInFace faceFromPosition
  split <;> omega

theorem validFaceEdge_next (m : Mutator) (q : ℕ) (h : m.validFaceEdge q) :
    m.validFaceEdge (nextPositionInFace q) := by
  unfold validFaceEdge at h ⊢
  unfold nextPositionInFace faceFromPosition
  omega

theorem mem_trioIndices (m : Mutator) (hdiv : 9 ∣ m.positions.length) (n : ℕ) :
    n ∈ m.trioIndices ↔ n % 3 = 0 ∧ n < 9 * m.faceCount := by
  unfold trioIndices faceCount
  simp only [List.mem_map, List.mem_range]
  obtain ⟨c, hc⟩ := hdiv
  constructor
  · rintro ⟨k, hk, rfl⟩
    omega
  · rintro ⟨h3, hlt⟩
    exact ⟨n / 3, by omega, by omega⟩

theorem mem_bucketOf (m : Mutator) (h : Q) (n : ℕ) :
    n ∈ m.bucketOf h ↔ n ∈ m.trioIndices ∧ Q.qeq (m.hashForTrio n) h := by
  unfold bucketOf
  simp [List.mem_filter]

theorem hashForTrio_congr (m : Mutator) (a b : ℕ) (h : m.equalTrios a b) :
    Q.qeq (m.hashForTrio a) (m.hashForTrio b) := by
  unfold equalTrios trioAt Vec.veq at h
  obtain ⟨hx, hy, hz⟩ := h
  unfold hashForTrio
  rw [Q.toRat_qeq] at hx hy hz ⊢
  rw [Q.toRat_add, Q.toRat_add, Q.toRat_add, Q.toRat_add, hx, hy, hz]

/-- Exact characterization of the initial candidate lists (shared with
the resolution-loop invariant work below). -/
theorem cands0_mem_char (m : Mutator) (hdiv : 9 ∣ m.positions.length) (p q : ℕ) :
    q ∈ m.cands0 p ↔
      (m.validFaceEdge p ∧ ¬ m.isFaceDegenerate (faceFromPosition p))
      ∧ (m.validFaceEdge q ∧ ¬ m.isFaceDegenerate (faceFromPosition q))
      ∧ m.equalTrios (nextPositionInFace q) p
      ∧ m.equalTrios (nextPositionInFace p) q := by
  by_cases hg : m.validFaceEdge p ∧ ¬ m.isFaceDegenerate (faceFromPosition p)
  · rw [cands0, if_pos hg, List.mem_filterMap]
    constructor
    · rintro ⟨n, hn, hFn⟩
      by_cases hC : m.equalTrios n p
          ∧ m.equalTrios (nextPositionInFace p) (previousPositionInFace n)
          ∧ ¬ m.isFaceDegenerate (faceFromPosition n)
      · rw [if_pos hC] at hFn
        obtain ⟨hC1, hC2, hC3⟩ := hC
        rw [Option.some.injEq] at hFn
        subst hFn
        obtain ⟨hti, _⟩ := (m.mem_bucketOf (m.hashForTrio p) n).1 hn
        obtain ⟨hn3, hnlt⟩ := (mem_trioIndices m hdiv n).1 hti
        refine ⟨hg, ⟨?_, ?_⟩, ?_, hC2⟩
        · unfold validFaceEdge previousPositionInFace
          constructor <;> (split <;> omega)
        · rw [face_prev]
          exact hC3
        · rw [next_prev n hn3]
          exact hC1
      · rw [if_neg hC] at hFn
        exact absurd hFn (by simp)
    · rintro ⟨-, ⟨hqv, hqd⟩, h1, h2⟩
      have hq3 : q % 3 = 0 := hqv.1
      refine ⟨nextPositionInFace q, ?_, ?_⟩
      · rw [mem_bucketOf]
        refine ⟨(mem_trioIndices m hdiv _).2 ?_, hashForTrio_congr m _ _ h1⟩
        have := validFaceEdge_next m q hqv
        unfold validFaceEdge at this
        exact this
      · have hc2 : m.equalTrios (nextPositionInFace p)
            (previousPositionInFace (nextPositionInFace q)) := by
          rw [prev_next q hq3]
          exact h2
        have hc3 : ¬ m.isFaceDegenerate (faceFromPosition (nextPositionInFace q)) := by
          rw [face_next]
          exact hqd
        rw [if_pos ⟨h1, hc2, hc3⟩, prev_next q hq3]
  · rw [cands0, if_neg hg]
    constructor
    · intro h
      exact absurd h (List.not_mem_nil q)
    · rintro ⟨hpg, -⟩
      exact absurd hpg hg

/-- CLAIM C10.  Candidate generation is exact: a face-edge starting at
position `q` is an initial possible-neighbor candidate of the face-edge
starting at `p` **iff** both are valid edges of non-degenerate faces and
the two edges' endpoint trios are equal scalar-for-scalar in reverse
order (`q`'s end equals `p`'s start and `p`'s end equals `q`'s start).
The weak sum hash `hashForTrio` does not appear in the right-hand side:
bucketing by it never admits a pair that `equalTrios` does not verify
exactly, and no rounding tolerance of any kind is applied. -/
theorem cands0_mem_iff (m : Mutator) (hdiv : 9 ∣ m.positions.length) (p q : ℕ) :
    q ∈ m.cands0 p ↔
      (m.validFaceEdge p ∧ ¬ m.isFaceDegenerate (faceFromPosition p))
      ∧ (m.validFaceEdge q ∧ ¬ m.isFaceDegenerate (faceFromPosition q))
      ∧ m.equalTrios (nextPositionInFace q) p
      ∧ m.equalTrios (nextPositionInFace p) q :=
  cands0_mem_char m hdiv p q

/-- Witness for `cands0_mem_iff` on the pillow mesh: edge 9 of the
reversed face is a candidate of edge 0 — produced by applying the
characterization right-to-left with the exact trio equalities checked by
evaluation — and the trio equality it asserts holds. -/
theorem cands0_mem_iff_witness :
    9 ∈ Mutator.cands0 pillowMesh 0
  ∧ Mutator.equalTrios pillowMesh (Mutator.nextPositionInFace 0) 9 :=
  ⟨(Mutator.cands0_mem_iff pillowMesh (by decide) 0 9).2 (by decide), by decide⟩

/-- Witness for `deleteDegenerates_idempotent_preserving` on the
tetrahedron: a second compaction is a no-op, and the symmetric neighbor
pair (0, 11) survives at the remapped indices (the identity remap, as no
face is dropped). -/
theorem deleteDegenerates_idempotent_preserving_witness :
    Mutator.deleteDegenerates (Mutator.deleteDegenerates tetraMesh)
        = Mutator.deleteDegenerates tetraMesh
  ∧ (Mutator.deleteDegenerates tetraMesh).neighbors.getD (3 * 0 + 0 % 3) none
        = some (3 * 3 + 11 % 3)
  ∧ (Mutator.deleteDegenerates tetraMesh).neighbors.getD (3 * 3 + 11 % 3) none
        = some (3 * 0 + 0 % 3) :=
  ⟨(deleteDegenerates_idempotent_preserving tetraMesh).1,
   ((deleteDegenerates_idempotent_preserving tetraMesh).2 0 11 0 3
      (by decide) (by decide) (by decide) (by decide)).1,
   ((deleteDegenerates_idempotent_preserving tetraMesh).2 0 11 0 3
      (by decide) (by decide) (by decide) (by decide)).2⟩

end Mutator

section SplitCount

open Mutator

theorem setAt_length_of_lt {α : Type} (l : List α) (i : ℕ) (v pad : α)
    (h : i < l.length) : (Mutator.setAt l i v pad).length = l.length := by
  unfold Mutator.setAt
  rw [if_pos h, List.length_set]

theorem setAt_length_of_ge {α : Type} (l : List α) (i : ℕ) (v pad : α)
    (h : l.length ≤ i) : (Mutator.setAt l i v pad).length = i + 1 := by
  unfold Mutator.setAt
  rw [if_neg (by omega)]
  simp only [List.length_append, List.length_replicate, List.length_cons,
    List.length_nil]
  omega

theorem writeVec_length_of_lt (l : List Q) (off : ℕ) (p : Vec)
    (h : off + 2 < l.length) : (writeVec l off p).length = l.length := by
  have e1 := setAt_length_of_lt l off p.x 0 (by omega)
  have e2 := setAt_length_of_lt (Mutator.setAt l off p.x 0) (off + 1) p.y 0
    (by rw [e1]; omega)
  have e3 := setAt_length_of_lt
    (Mutator.setAt (Mutator.setAt l off p.x 0) (off + 1) p.y 0) (off + 2) p.z 0
    (by rw [e2, e1]; omega)
  unfold writeVec
  rw [e3, e2, e1]

theorem writeVec_length_append (l : List Q) (p : Vec) :
    (writeVec l l.length p).length = l.length + 3 := by
  have e1 := setAt_length_of_ge l l.length p.x 0 (le_refl _)
  have e2 := setAt_length_of_ge (Mutator.setAt l l.length p.x 0)
    (l.length + 1) p.y 0 (by rw [e1])
  have e3 := setAt_length_of_ge
    (Mutator.setAt (Mutator.setAt l l.length p.x 0) (l.length + 1) p.y 0)
    (l.length + 2) p.z 0 (by rw [e2])
  unfold writeVec
  rw [e3]

theorem writeVecs_single (l : List Q) (t : ℕ) (p : Vec) :
    writeVecs l t [p] = writeVec l t p := rfl

theorem writeVecs_length_append : ∀ (ps : List Vec) (l : List Q),
    (writeVecs l l.length ps).length = l.length + 3 * ps.length
  | [], l => by simp [writeVecs]
  | p :: rest, l => by
    show (writeVecs (writeVec l l.length p) (l.length + 3) rest).length = _
    rw [show l.length + 3 = (writeVec l l.length p).length from
          (writeVec_length_append l p).symm,
        writeVecs_length_append rest (writeVec l l.length p),
        writeVec_length_append]
    simp only [List.length_cons]
    ring

theorem length_ite_three {α : Type} (c : Prop) [inst : Decidable c]
    (a b d a2 b2 d2 : α) :
    (if c then [a, b, d] else [a2, b2, d2]).length = 3 := by
  split <;> rfl

theorem ite_add_lt (c : Prop) [inst : Decidable c] {a b k L : ℕ}
    (ha : a + k < L) (hb : b + k < L) : (if c then a else b) + k < L := by
  split <;> assumption

theorem moveSide_step (pl : Plane) (m : Mutator) (ipt : Vec) (icolor : Option Vec)
    (acc : Mutator × List Vec) (side : ℕ × ℕ × ℕ)
    (h1 : side.1 + 2 < acc.1.positions.length)
    (h2 : side.2.1 + 2 < acc.1.positions.length) :
    (moveSide pl m ipt icolor acc side).1.positions.length
      = acc.1.positions.length + 9
    ∧ (moveSide pl m ipt icolor acc side).1.neighbors = acc.1.neighbors
    ∧ (moveSide pl m ipt icolor acc side).1.reverseIslands = acc.1.reverseIslands := by
  refine ⟨?_, rfl, rfl⟩
  show (writeVecs
      (writeVecs acc.1.positions
        (if vertexToMove pl m side = 0 then side.1 else side.2.1) [ipt])
      (writeVecs acc.1.positions
        (if vertexToMove pl m side = 0 then side.1 else side.2.1) [ipt]).length
      (if vertexToMove pl m side = 0
        then [m.trioAt side.2.2, m.trioAt side.1, ipt]
        else [ipt, m.trioAt side.2.1, m.trioAt side.2.2])).length
    = acc.1.positions.length + 9
  rw [writeVecs_length_append, length_ite_three, writeVecs_single,
      writeVec_length_of_lt _ _ _ (ite_add_lt (vertexToMove pl m side = 0) h1 h2)]

theorem getDq_some_mem {α : Type} (l : List (Option α)) (i : ℕ) (v : α)
    (h : (l[i]?).getD none = some v) : some v ∈ l := by
  rcases Nat.lt_or_ge i l.length with hi | hi
  · rw [List.getElem?_eq_getElem hi] at h
    simp only [Option.getD_some] at h
    exact h ▸ List.getElem_mem hi
  · rw [List.getElem?_eq_none hi] at h
    exact absurd h (by simp)

theorem getD_some_mem {α : Type} (l : List (Option α)) (i : ℕ) (v : α)
    (h : l.getD i none = some v) : some v ∈ l := by
  rw [List.getD_eq_getElem?_getD] at h
  exact getDq_some_mem l i v h

theorem mem_setAt_of_lt {α : Type} (l : List α) (i : ℕ) (v pad x : α)
    (hi : i < l.length) (hx : x ∈ Mutator.setAt l i v pad) : x ∈ l ∨ x = v := by
  unfold Mutator.setAt at hx
  rw [if_pos hi] at hx
  exact List.mem_or_eq_of_mem_set hx

theorem symLoop_invariant (start count N : ℕ) (arr : List (Option ℕ))
    (hlen : arr.length = N) (hbound : ∀ v, some v ∈ arr → v < N)
    (hcnt : start + count ≤ N) :
    (symLoop arr start count).length = N
    ∧ ∀ v, some v ∈ symLoop arr start count → v < N := by
  unfold symLoop
  refine foldl_preserve
    (fun a : List (Option ℕ) => a.length = N ∧ ∀ v, some v ∈ a → v < N)
    _ (List.range count) arr ?_ ⟨hlen, hbound⟩
  intro a j hj hP
  obtain ⟨ha1, ha2⟩ := hP
  have hj3 : j < count := by simpa using hj
  cases hget : a.getD (start + j) none with
  | none => exact ⟨ha1, ha2⟩
  | some v =>
    have hv : v < N := ha2 v (getD_some_mem a (start + j) v hget)
    constructor
    · have hlset := setAt_length_of_lt a v (some (start + j)) none (by omega)
      rw [ha1] at hlset
      exact hlset
    · intro w hw
      rcases mem_setAt_of_lt a v (some (start + j)) none (some w) (by omega) hw with h | h
      · exact ha2 w h
      · rw [Option.some.injEq] at h
        omega

theorem splitEntries_length_none (m2 : Mutator) (nni v1 p00 p01 p02 : ℕ)
    (hv : v1 = 0 ∨ v1 = 1) :
    (splitEntries m2 nni none [v1] p00 p01 p02).length = 3 := by
  rcases hv with h | h <;> subst h <;> rfl

theorem splitEntries_length_some (m2 : Mutator) (nni : ℕ) (nb : ℕ × ℕ × ℕ)
    (v1 v2 p00 p01 p02 : ℕ) (hv1 : v1 = 0 ∨ v1 = 1) (hv2 : v2 = 0 ∨ v2 = 1) :
    (splitEntries m2 nni (some nb) [v1, v2] p00 p01 p02).length = 6 := by
  obtain ⟨a, b, c⟩ := nb
  rcases hv1 with h | h <;> rcases hv2 with h2 | h2 <;> subst h <;> subst h2 <;> rfl

theorem splitEntries_bound_none (m2 : Mutator) (nni v1 p00 p01 p02 B : ℕ)
    (hv1 : v1 = 0 ∨ v1 = 1)
    (hold : ∀ v, some v ∈ m2.neighbors → v < B)
    (h01 : p01 / 3 < B) (h02 : p02 / 3 < B) :
    ∀ v, some v ∈ splitEntries m2 nni none [v1] p00 p01 p02 → v < B := by
  intro v hv
  rcases hv1 with h | h <;> subst h <;> unfold splitEntries at hv <;> simp at hv
  · rcases hv with h2 | h2
    · exact hold v (getDq_some_mem _ _ _ h2.symm)
    · omega
  · rcases hv with h2 | h2
    · exact hold v (getDq_some_mem _ _ _ h2.symm)
    · omega

theorem splitEntries_bound_some (m2 : Mutator) (nni p10 p11 p12 : ℕ)
    (v1 v2 p00 p01 p02 B : ℕ) (hv1 : v1 = 0 ∨ v1 = 1) (hv2 : v2 = 0 ∨ v2 = 1)
    (hold : ∀ v, some v ∈ m2.neighbors → v < B)
    (h00 : p00 / 3 < B) (h01 : p01 / 3 < B) (h02 : p02 / 3 < B)
    (h10 : p10 / 3 < B) (h11 : p11 / 3 < B) (h12 : p12 / 3 < B)
    (hni : nni + 5 < B) :
    ∀ v, some v ∈ splitEntries m2 nni (some (p10, p11, p12)) [v1, v2] p00 p01 p02
      → v < B := by
  intro v hv
  rcases hv1 with h | h <;> rcases hv2 with h2 | h2 <;> subst h <;> subst h2 <;>
    unfold splitEntries at hv <;> simp at hv <;>
    rcases hv with h3 | h3 | h3 | h3 | h3 | h3 <;>
    first
    | omega
    | exact hold v (getDq_some_mem _ _ _ h3.symm)

theorem vertexToMove_cases (pl : Plane) (m : Mutator) (side : ℕ × ℕ × ℕ) :
    vertexToMove pl m side = 0 ∨ vertexToMove pl m side = 1 := by
  unfold vertexToMove
  cases pl.intersectLine (m.trioAt side.1) (m.trioAt side.2.2) with
  | none => exact Or.inl rfl
  | some pt =>
    by_cases hc : Vec.veq pt (m.trioAt side.1) ∨ Vec.veq pt (m.trioAt side.2.2)
    · exact Or.inl (if_pos hc)
    · exact Or.inr (if_neg hc)

theorem islandCopies_frame (m3 : Mutator) (sides : List (ℕ × ℕ × ℕ)) (np : ℕ) :
    (islandCopies m3 sides np).positions = m3.positions
    ∧ (islandCopies m3 sides np).neighbors = m3.neighbors := by
  unfold islandCopies
  exact foldl_preserve
    (fun mm : Mutator => mm.positions = m3.positions ∧ mm.neighbors = m3.neighbors)
    _ (List.range sides.length) m3 (fun b x _ hb => hb) ⟨rfl, rfl⟩

theorem next_bound (q K : ℕ) (h3 : q % 3 = 0) (h : q < 9 * K) :
    nextPositionInFace q % 3 = 0 ∧ nextPositionInFace q < 9 * K := by
  unfold nextPositionInFace faceFromPosition
  omega

theorem prev_bound (q K : ℕ) (h3 : q % 3 = 0) (h : q < 9 * K) :
    previousPositionInFace q % 3 = 0 ∧ previousPositionInFace q < 9 * K := by
  unfold previousPositionInFace
  split <;> omega

set_option maxHeartbeats 2000000

theorem splitCrossStep_spec (pl : Plane) (m : Mutator) (sp : List Vec) (f e : ℕ)
    (hpos : m.positions.length = 9 * m.faceCount)
    (hnbl : m.neighbors.length = 3 * m.faceCount)
    (hnbr : ∀ v, some v ∈ m.neighbors → v < 3 * m.faceCount)
    (hf : f < m.faceCount) (he : e < 3) :
    ((splitCrossStep pl m sp f e).2.2 = 1 ∨ (splitCrossStep pl m sp f e).2.2 = 2)
    ∧ (splitCrossStep pl m sp f e).1.positions.length
        = m.positions.length + 9 * (splitCrossStep pl m sp f e).2.2
    ∧ (splitCrossStep pl m sp f e).1.neighbors.length
        = m.neighbors.length + 3 * (splitCrossStep pl m sp f e).2.2
    ∧ ∀ v, some v ∈ (splitCrossStep pl m sp f e).1.neighbors
        → v < m.neighbors.length + 3 * (splitCrossStep pl m sp f e).2.2 := by
  have hp00 : positionFromFaceEdge f e % 3 = 0
      ∧ positionFromFaceEdge f e < 9 * m.faceCount := by
    unfold positionFromFaceEdge positionFromFace
    omega
  have hp01 := next_bound _ m.faceCount hp00.1 hp00.2
  have hp02 := next_bound _ m.faceCount hp01.1 hp01.2
  have hb00 : positionFromFaceEdge f e + 2 < m.positions.length := by omega
  have hb01 : nextPositionInFace (positionFromFaceEdge f e) + 2
      < m.positions.length := by omega
  cases hnb0 : m.neighbors.getD (positionFromFaceEdge f e / 3) none with
  | none =>
    have hs1 : (splitCrossStep pl m sp f e).2.2 = 1 := by
      simp only [splitCrossStep, getNeighborPosition]
      rw [hnb0]
      rfl
    have hkey : ∀ (ipt : Vec) (icolor : Option Vec),
        (moveSide pl m ipt icolor (m, sp)
          (positionFromFaceEdge f e,
           nextPositionInFace (positionFromFaceEdge f e),
           nextPositionInFace (nextPositionInFace (positionFromFaceEdge f e)))
          ).1.positions.length
          = m.positions.length + 9 :=
      fun ipt icolor =>
        (moveSide_step pl m ipt icolor (m, sp) _ hb00 hb01).1
    have hplen : (splitCrossStep pl m sp f e).1.positions.length
        = m.positions.length + 9 := by
      simp only [splitCrossStep, getNeighborPosition]
      rw [hnb0]
      exact Eq.trans (congrArg List.length (islandCopies_frame _ _ _).1) (hkey _ _)
    have hv1 := vertexToMove_cases pl m
      (positionFromFaceEdge f e,
       nextPositionInFace (positionFromFaceEdge f e),
       nextPositionInFace (nextPositionInFace (positionFromFaceEdge f e)))
    have hngen : ∀ mm : Mutator, mm.neighbors = m.neighbors →
        (symLoop (mm.neighbors ++ splitEntries mm mm.neighbors.length none
            [vertexToMove pl m
              (positionFromFaceEdge f e,
               nextPositionInFace (positionFromFaceEdge f e),
               nextPositionInFace (nextPositionInFace (positionFromFaceEdge f e)))]
            (positionFromFaceEdge f e)
            (nextPositionInFace (positionFromFaceEdge f e))
            (nextPositionInFace (nextPositionInFace (positionFromFaceEdge f e))))
          mm.neighbors.length (1 * 3)).length = m.neighbors.length + 3
        ∧ ∀ v, some v ∈ symLoop (mm.neighbors ++ splitEntries mm mm.neighbors.length none
            [vertexToMove pl m
              (positionFromFaceEdge f e,
               nextPositionInFace (positionFromFaceEdge f e),
               nextPositionInFace (nextPositionInFace (positionFromFaceEdge f e)))]
            (positionFromFaceEdge f e)
            (nextPositionInFace (positionFromFaceEdge f e))
            (nextPositionInFace (nextPositionInFace (positionFromFaceEdge f e))))
          mm.neighbors.length (1 * 3) → v < m.neighbors.length + 3 := by
      intro mm hmm
      rw [hmm]
      apply symLoop_invariant
      · rw [List.length_append, splitEntries_length_none mm _ _ _ _ _ hv1]
      · intro v hv
        rcases List.mem_append.1 hv with h | h
        · have := hnbr v h
          omega
        · refine splitEntries_bound_none mm m.neighbors.length _ _ _ _
            (m.neighbors.length + 3) hv1 ?_ ?_ ?_ v h
          · intro w hw
            rw [hmm] at hw
            have := hnbr w hw
            omega
          · omega
          · omega
      · omega
    have hnlen : (splitCrossStep pl m sp f e).1.neighbors.length
        = m.neighbors.length + 3 := by
      simp only [splitCrossStep, getNeighborPosition]
      rw [hnb0]
      exact Eq.trans (congrArg List.length (islandCopies_frame _ _ _).2)
        ((hngen _ rfl).1)
    have hnbound : ∀ v, some v ∈ (splitCrossStep pl m sp f e).1.neighbors
        → v < m.neighbors.length + 3 := by
      simp only [splitCrossStep, getNeighborPosition]
      rw [hnb0]
      intro v hv
      rw [(islandCopies_frame _ _ _).2] at hv
      exact (hngen _ rfl).2 v hv
    refine ⟨Or.inl hs1, ?_, ?_, ?_⟩
    · rw [hplen, hs1]
    · rw [hnlen, hs1]
    · intro v hv
      have := hnbound v hv
      rw [hs1]
      omega
  | some nbv =>
    have hnbv : nbv < 3 * m.faceCount := hnbr nbv (getD_some_mem _ _ _ hnb0)
    have hnp : (nbv * 3) % 3 = 0 ∧ nbv * 3 < 9 * m.faceCount := by omega
    have hnp1 := next_bound (nbv * 3) m.faceCount hnp.1 hnp.2
    have hnp2 := prev_bound (nbv * 3) m.faceCount hnp.1 hnp.2
    have hs1 : (splitCrossStep pl m sp f e).2.2 = 2 := by
      simp only [splitCrossStep, getNeighborPosition]
      rw [hnb0]
      rfl
    have hkey : ∀ (ipt : Vec) (icolor : Option Vec),
        (moveSide pl m ipt icolor
          (moveSide pl m ipt icolor (m, sp)
            (positionFromFaceEdge f e,
             nextPositionInFace (positionFromFaceEdge f e),
             nextPositionInFace (nextPositionInFace (positionFromFaceEdge f e))))
          (nbv * 3, nextPositionInFace (nbv * 3),
           previousPositionInFace (nbv * 3))).1.positions.length
          = m.positions.length + 18 := by
      intro ipt icolor
      have s1 := moveSide_step pl m ipt icolor (m, sp)
        (positionFromFaceEdge f e,
         nextPositionInFace (positionFromFaceEdge f e),
         nextPositionInFace (nextPositionInFace (positionFromFaceEdge f e)))
        hb00 hb01
      have s2 := moveSide_step pl m ipt icolor
        (moveSide pl m ipt icolor (m, sp)
          (positionFromFaceEdge f e,
           nextPositionInFace (positionFromFaceEdge f e),
           nextPositionInFace (nextPositionInFace (positionFromFaceEdge f e))))
        (nbv * 3, nextPositionInFace (nbv * 3), previousPositionInFace (nbv * 3))
        (by rw [s1.1]
            exact (show nbv * 3 + 2 < m.positions.length + 9 by omega))
        (by rw [s1.1]
            exact (show nextPositionInFace (nbv * 3) + 2 < m.positions.length + 9
              by omega))
      rw [s2.1, s1.1]
    have hplen : (splitCrossStep pl m sp f e).1.positions.length
        = m.positions.length + 18 := by
      simp only [splitCrossStep, getNeighborPosition]
      rw [hnb0]
      exact Eq.trans (congrArg List.length (islandCopies_frame _ _ _).1) (hkey _ _)
    have hv1 := vertexToMove_cases pl m
      (positionFromFaceEdge f e,
       nextPositionInFace (positionFromFaceEdge f e),
       nextPositionInFace (nextPositionInFace (positionFromFaceEdge f e)))
    have hv2 := vertexToMove_cases pl m
      (nbv * 3, nextPositionInFace (nbv * 3), previousPositionInFace (nbv * 3))
    have hngen : ∀ mm : Mutator, mm.neighbors = m.neighbors →
        (symLoop (mm.neighbors ++ splitEntries mm mm.neighbors.length
            (some (nbv * 3, nextPositionInFace (nbv * 3),
              previousPositionInFace (nbv * 3)))
            [vertexToMove pl m
              (positionFromFaceEdge f e,
               nextPositionInFace (positionFromFaceEdge f e),
               nextPositionInFace (nextPositionInFace (positionFromFaceEdge f e))),
             vertexToMove pl m
              (nbv * 3, nextPositionInFace (nbv * 3),
               previousPositionInFace (nbv * 3))]
            (positionFromFaceEdge f e)
            (nextPositionInFace (positionFromFaceEdge f e))
            (nextPositionInFace (nextPositionInFace (positionFromFaceEdge f e))))
          mm.neighbors.length (2 * 3)).length = m.neighbors.length + 6
        ∧ ∀ v, some v ∈ symLoop (mm.neighbors ++ splitEntries mm mm.neighbors.length
            (some (nbv * 3, nextPositionInFace (nbv * 3),
              previousPositionInFace (nbv * 3)))
            [vertexToMove pl m
              (positionFromFaceEdge f e,
               nextPositionInFace (positionFromFaceEdge f e),
               nextPositionInFace (nextPositionInFace (positionFromFaceEdge f e))),
             vertexToMove pl m
              (nbv * 3, nextPositionInFace (nbv * 3),
               previousPositionInFace (nbv * 3))]
            (positionFromFaceEdge f e)
            (nextPositionInFace (positionFromFaceEdge f e))
            (nextPositionInFace (nextPositionInFace (positionFromFaceEdge f e))))
          mm.neighbors.length (2 * 3) → v < m.neighbors.length + 6 := by
      intro mm hmm
      rw [hmm]
      apply symLoop_invariant
      · rw [List.length_append,
            splitEntries_length_some mm _ _ _ _ _ _ _ hv1 hv2]
      · intro v hv
        rcases List.mem_append.1 hv with h | h
        · have := hnbr v h
          omega
        · refine splitEntries_bound_some mm m.neighbors.length _ _ _ _ _ _ _ _
            (m.neighbors.length + 6) hv1 hv2 ?_ ?_ ?_ ?_ ?_ ?_ ?_ ?_ v h
          · intro w hw
            rw [hmm] at hw
            have := hnbr w hw
            omega
          · omega
          · omega
          · omega
          · omega
          · omega
          · omega
          · omega
      · omega
    have hnlen : (splitCrossStep pl m sp f e).1.neighbors.length
        = m.neighbors.length + 6 := by
      simp only [splitCrossStep, getNeighborPosition]
      rw [hnb0]
      exact Eq.trans (congrArg List.length (islandCopies_frame _ _ _).2)
        ((hngen _ rfl).1)
    have hnbound : ∀ v, some v ∈ (splitCrossStep pl m sp f e).1.neighbors
        → v < m.neighbors.length + 6 := by
      simp only [splitCrossStep, getNeighborPosition]
      rw [hnb0]
      intro v hv
      rw [(islandCopies_frame _ _ _).2] at hv
      exact (hngen _ rfl).2 v hv
    refine ⟨Or.inr hs1, ?_, ?_, ?_⟩
    · rw [hplen, hs1]
    · rw [hnlen, hs1]
    · intro v hv
      have := hnbound v hv
      rw [hs1]
      omega

theorem splitFaceEdgeStep_invariant (pl : Plane) (st : SplitState) (f e : ℕ)
    (hwf : SplitWF st.m) (hf : f < st.m.faceCount) (he : e < 3) :
    SplitWF (splitFaceEdgeStep pl st f e).m
    ∧ (splitFaceEdgeStep pl st f e).m.positions.length
        + 18 * st.interiorCrossings + 9 * st.boundaryCrossings
      = st.m.positions.length
        + 18 * (splitFaceEdgeStep pl st f e).interiorCrossings
        + 9 * (splitFaceEdgeStep pl st f e).boundaryCrossings := by
  obtain ⟨hpos, hnbl, hnbr⟩ := hwf
  obtain ⟨hs, hp, hn, hb⟩ :=
    splitCrossStep_spec pl st.m st.splitPositions f e hpos hnbl hnbr hf he
  simp only [splitFaceEdgeStep]
  split
  · exact ⟨⟨hpos, hnbl, hnbr⟩, rfl⟩
  split
  · exact ⟨⟨hpos, hnbl, hnbr⟩, rfl⟩
  refine ⟨⟨?_, ?_, ?_⟩, ?_⟩
  · show (splitCrossStep pl st.m st.splitPositions f e).1.positions.length
      = 9 * (splitCrossStep pl st.m st.splitPositions f e).1.faceCount
    unfold Mutator.faceCount
    rw [hp, hpos]
    rcases hs with h22 | h22 <;> rw [h22] <;> omega
  · show (splitCrossStep pl st.m st.splitPositions f e).1.neighbors.length
      = 3 * (splitCrossStep pl st.m st.splitPositions f e).1.faceCount
    unfold Mutator.faceCount
    rw [hn, hp, hnbl, hpos]
    rcases hs with h22 | h22 <;> rw [h22] <;> omega
  · show ∀ v, some v ∈ (splitCrossStep pl st.m st.splitPositions f e).1.neighbors
      → v < 3 * (splitCrossStep pl st.m st.splitPositions f e).1.faceCount
    intro v hv
    have h5 := hb v hv
    rw [hnbl] at h5
    unfold Mutator.faceCount
    rw [hp, hpos]
    rcases hs with h22 | h22 <;> rw [h22] at h5 ⊢ <;> omega
  · show (splitCrossStep pl st.m st.splitPositions f e).1.positions.length
        + 18 * st.interiorCrossings + 9 * st.boundaryCrossings
      = st.m.positions.length
        + 18 * (st.interiorCrossings
            + (if (splitCrossStep pl st.m st.splitPositions f e).2.2 = 2
               then 1 else 0))
        + 9 * (st.boundaryCrossings
            + (if (splitCrossStep pl st.m st.splitPositions f e).2.2 = 1
               then 1 else 0))
    rw [hp]
    rcases hs with h22 | h22 <;> rw [h22]
    · rw [show (if (1 : ℕ) = 2 then (1 : ℕ) else 0) = 0 from rfl,
          show (if (1 : ℕ) = 1 then (1 : ℕ) else 0) = 1 from rfl]
      omega
    · rw [show (if (2 : ℕ) = 2 then (1 : ℕ) else 0) = 1 from rfl,
          show (if (2 : ℕ) = 1 then (1 : ℕ) else 0) = 0 from rfl]
      omega

theorem splitFacesFull_invariant (m : Mutator) (pl : Plane) (hwf : SplitWF m) :
    SplitWF (m.splitFacesFull pl).m
    ∧ (m.splitFacesFull pl).m.positions.length
      = m.positions.length + 18 * (m.splitFacesFull pl).interiorCrossings
        + 9 * (m.splitFacesFull pl).boundaryCrossings := by
  unfold Mutator.splitFacesFull
  refine foldl_preserve
    (fun st : SplitState => SplitWF st.m ∧ st.m.positions.length
      = m.positions.length + 18 * st.interiorCrossings + 9 * st.boundaryCrossings)
    _ (List.range m.faceCount) _ ?_
    ⟨hwf, by show m.positions.length = m.positions.length + 18 * 0 + 9 * 0; omega⟩
  intro st f hf hP
  refine foldl_preserve
    (fun st : SplitState => SplitWF st.m ∧ st.m.positions.length
      = m.positions.length + 18 * st.interiorCrossings + 9 * st.boundaryCrossings)
    _ (List.range 3) st ?_ hP
  intro st2 e he hP2
  have he3 : e < 3 := by simpa using he
  have hf0 : f < m.faceCount := by simpa using hf
  have hfc : f < st2.m.faceCount := by
    have h2 := hP2.2
    unfold Mutator.faceCount at hf0 ⊢
    omega
  obtain ⟨hw3, heq3⟩ := splitFaceEdgeStep_invariant pl st2 f e hP2.1 hfc he3
  refine ⟨hw3, ?_⟩
  have h2 := hP2.2
  omega

/-- CLAIM C3 (amended).  The split face-count law of the code: for every
well-formed mesh (9 position scalars per face, 3 neighbor entries per
face, all neighbor entries in range) and every plane, the face count
after `splitFaces` equals the original face count plus **2 per interior
crossing plus 1 per boundary crossing** — not plus 2 per crossing of
either kind, as the headline "original + 2K" claims (see the
counterexample: a crossing of a boundary edge appends exactly one face,
not two). -/
theorem splitFaces_face_count_law (m : Mutator) (pl : Plane) (hwf : SplitWF m) :
    (m.splitFacesFull pl).m.faceCount
      = m.faceCount + 2 * (m.splitFacesFull pl).interiorCrossings
        + (m.splitFacesFull pl).boundaryCrossings := by
  obtain ⟨-, heq⟩ := splitFacesFull_invariant m pl hwf
  have h1 := hwf.posLen
  unfold Mutator.faceCount at h1 ⊢
  omega

/-- CLAIM C3 (counterexample).  A lone triangle crossing the plane
`x = 1` resolves two crossings, both of boundary edges (no neighbor):
the spec's law predicts `1 + 2·2 = 5` faces, but the code appends one
new face per boundary crossing and ends with 3. -/
theorem splitFaces_two_K_counterexample :
    (boundaryTriangle.splitFacesFull planeX1).interiorCrossings = 0
  ∧ (boundaryTriangle.splitFacesFull planeX1).boundaryCrossings = 2
  ∧ (boundaryTriangle.splitFacesFull planeX1).m.faceCount = 3
  ∧ boundaryTriangle.faceCount = 1
  ∧ (3 : ℕ) ≠ 1 + 2 * 2 := by
  decide

/-- Witness for `splitFaces_face_count_law` on the boundary triangle
(whose topology arrays are well-formed): the law holds on it with the
counts the run produces. -/
theorem splitFaces_face_count_law_witness :
    (boundaryTriangle.splitFacesFull planeX1).m.faceCount
      = boundaryTriangle.faceCount
        + 2 * (boundaryTriangle.splitFacesFull planeX1).interiorCrossings
        + (boundaryTriangle.splitFacesFull planeX1).boundaryCrossings :=
  splitFaces_face_count_law boundaryTriangle planeX1
    ⟨by decide, by decide, by intro v hv; simp [boundaryTriangle] at hv⟩

end SplitCount

section MergeIslands

open Mutator

set_option maxHeartbeats 2000000

theorem mem_setAt_none_sub {α : Type} (l : List (Option α)) (f : ℕ) (x : α)
    (hx : some x ∈ Mutator.setAt l f none none) : some x ∈ l := by
  unfold Mutator.setAt at hx
  split at hx
  · rcases List.mem_or_eq_of_mem_set hx with h | h
    · exact h
    · exact absurd h (by simp)
  · rcases List.mem_append.1 hx with h | h
    · rcases List.mem_append.1 h with h2 | h2
      · exact h2
      · exact absurd (List.eq_of_mem_replicate h2) (by simp)
    · simp at h

theorem mem_islandLabels (m : Mutator) (a : ℕ) :
    a ∈ m.islandLabels ↔ some a ∈ m.reverseIslands := by
  unfold islandLabels
  rw [List.mem_toFinset, List.mem_filterMap]
  constructor
  · rintro ⟨o, ho, heq⟩
    exact heq ▸ ho
  · intro h
    exact ⟨some a, h, rfl⟩

theorem rd0_ri_sub (m : Mutator) (faces : List ℕ) :
    ∀ a, some a ∈ (m.removeDegenerates0Angle faces).1.reverseIslands →
      some a ∈ m.reverseIslands := by
  unfold removeDegenerates0Angle
  refine foldl_preserve
    (fun st : Mutator × ℕ =>
      ∀ a, some a ∈ st.1.reverseIslands → some a ∈ m.reverseIslands)
    _ faces (m, 0) ?_ (fun a h => h)
  intro st f _ hP
  dsimp only
  split
  · exact hP
  · refine foldl_preserve
      (fun st2 : Mutator × ℕ =>
        ∀ a, some a ∈ st2.1.reverseIslands → some a ∈ m.reverseIslands)
      _ (List.range 3) st ?_ hP
    intro st2 e _ hP2
    dsimp only
    split
    · intro a ha
      exact hP2 a (mem_setAt_none_sub _ _ _ ha)
    · exact hP2

theorem rd180_ri_sub (ext : ExtGeom) (m : Mutator) (faces : List ℕ) :
    ∀ a, some a ∈ (removeDegenerates180Angle ext m faces).1.reverseIslands →
      some a ∈ m.reverseIslands := by
  unfold removeDegenerates180Angle
  refine foldl_preserve
    (fun st : Mutator × ℕ =>
      ∀ a, some a ∈ st.1.reverseIslands → some a ∈ m.reverseIslands)
    _ faces (m, 0) ?_ (fun a h => h)
  intro st f _ hP
  dsimp only
  split
  · exact hP
  · split
    · exact hP
    · exact hP

theorem rd_ri_sub (ext : ExtGeom) (faces : List ℕ) :
    ∀ (fuel : ℕ) (m : Mutator) (a : ℕ),
      some a ∈ (removeDegenerates ext faces fuel m).reverseIslands →
      some a ∈ m.reverseIslands
  | 0, m, a, h => h
  | fuel + 1, m, a, h => by
    simp only [removeDegenerates] at h
    split at h
    · exact rd0_ri_sub m faces a (rd180_ri_sub ext _ faces a h)
    · exact rd0_ri_sub m faces a
        (rd180_ri_sub ext _ faces a (rd_ri_sub ext faces fuel _ a h))

theorem mergeCollapse_ri (sv : Vec) (s : ℕ) :
    ∀ (fuel : ℕ) (m : Mutator) (cur : ℕ),
      (mergeCollapse m sv s fuel cur).1.reverseIslands = m.reverseIslands
  | 0, _, _ => rfl
  | fuel + 1, m, cur => by
    simp only [mergeCollapse]
    split
    · exact mergeCollapse_ri sv s fuel _ 0
    · split
      · rfl
      · exact mergeCollapse_ri sv s fuel _ _

theorem mergeStep_ri_sub (ext : ExtGeom) (eq : Vec → Vec → Bool) (fuel : ℕ)
    (st : Mutator × ℕ) (f e : ℕ) :
    ∀ a, some a ∈ (mergeStep ext eq fuel st f e).1.reverseIslands →
      some a ∈ st.1.reverseIslands := by
  unfold mergeStep
  dsimp only
  split
  · exact fun a h => h
  · split
    · split
      · intro a ha
        have h1 := rd_ri_sub ext _ fuel _ a ha
        rw [mergeCollapse_ri] at h1
        exact h1
      · exact fun a h => h
    · exact fun a h => h

theorem dd_ri_sub (m : Mutator) :
    ∀ a, some a ∈ (Mutator.deleteDegenerates m).reverseIslands →
      some a ∈ m.reverseIslands := by
  intro a ha
  rw [dd_reverseIslands_def] at ha
  rcases List.mem_map.1 ha with ⟨f, -, hf⟩
  exact getD_some_mem _ _ _ hf

theorem mergeFacesLoop_ri_sub (ext : ExtGeom) (eq : Vec → Vec → Bool)
    (fc fuel : ℕ) :
    ∀ (outer : ℕ) (st : Mutator × ℕ) (a : ℕ),
      some a ∈ (mergeFacesLoop ext eq fc fuel outer st).1.reverseIslands →
      some a ∈ st.1.reverseIslands
  | 0, _, _, h => h
  | outer + 1, (m, merged), a, h => by
    simp only [mergeFacesLoop] at h
    have hpass : ∀ b, some b ∈ ((List.range fc).foldl
        (fun st f =>
          (List.range 3).foldl (fun st2 e => mergeStep ext eq fuel st2 f e) st)
        (m, merged)).1.reverseIslands → some b ∈ m.reverseIslands := by
      refine foldl_preserve
        (fun st : Mutator × ℕ =>
          ∀ b, some b ∈ st.1.reverseIslands → some b ∈ m.reverseIslands)
        _ (List.range fc) (m, merged) ?_ (fun b hb => hb)
      intro st f _ hP
      refine foldl_preserve
        (fun st2 : Mutator × ℕ =>
          ∀ b, some b ∈ st2.1.reverseIslands → some b ∈ m.reverseIslands)
        _ (List.range 3) st ?_ hP
      intro st2 e _ hP2
      intro b hb
      exact hP2 b (mergeStep_ri_sub ext eq fuel st2 f e b hb)
    split at h
    · exact hpass a (dd_ri_sub _ a h)
    · have h2 := mergeFacesLoop_ri_sub ext eq fc fuel outer _ a h
      exact hpass a (dd_ri_sub _ a h2)

/-- CLAIM C7 (amended).  `mergeFaces` never **increases** the island
count — every surviving island root was an island root before the call —
but the claim that it never *changes* the count is false: with a
caller-supplied near-equality predicate that accepts everything, merging
collapses faces into degenerates, the cleanup deletes them, and an
entire island can disappear (see the counterexample: the tetrahedron's
single island drops to zero islands). -/
theorem mergeFaces_islandCount_le (ext : ExtGeom) (eq : Vec → Vec → Bool)
    (fuel : ℕ) (m : Mutator) :
    islandCount (mergeFaces ext eq fuel m).1 ≤ islandCount m := by
  have hsub : ∀ a, some a ∈ (mergeFaces ext eq fuel m).1.reverseIslands →
      some a ∈ m.reverseIslands := by
    intro a ha
    unfold mergeFaces at ha
    have h1 := mergeFacesLoop_ri_sub ext eq m.faceCount fuel fuel _ a ha
    exact rd_ri_sub ext _ fuel m a h1
  unfold islandCount
  apply Finset.card_le_card
  intro a ha
  rw [mem_islandLabels] at ha ⊢
  exact hsub a ha

/-- CLAIM C7 (counterexample).  On the tetrahedron — a degenerate-free
mesh with exactly one island — `mergeFaces` with the all-accepting
normal near-equality predicate performs two merges and deletes every
face: the island count changes from 1 to 0, so `mergeFaces` does not
preserve the island count of its input. -/
theorem mergeFaces_changes_islandCount :
    islandCount (mergeFaces extJ (fun _ _ => true) 20 tetraMesh).1 = 0
  ∧ islandCount tetraMesh = 1
  ∧ (∀ f ∈ [0, 1, 2, 3], ¬ tetraMesh.isFaceDegenerate f) := by
  decide

end MergeIslands

section FindNeighborsSymmetry

open Mutator NState

set_option maxHeartbeats 2000000

theorem veq_symm {a b : Vec} (h : Vec.veq a b) : Vec.veq b a :=
  ⟨h.1.symm, h.2.1.symm, h.2.2.symm⟩

theorem equalTrios_symm (m : Mutator) (a b : ℕ) (h : m.equalTrios a b) :
    m.equalTrios b a := veq_symm h

theorem pfe_canon (p : ℕ) (h3 : p % 3 = 0) :
    positionFromFaceEdge (faceFromPosition p) (edgeFromPosition p) = p := by
  unfold positionFromFaceEdge positionFromFace faceFromPosition edgeFromPosition
  omega

theorem canon_valid (p K : ℕ) (h : p < 9 * K) :
    positionFromFaceEdge (faceFromPosition p) (edgeFromPosition p) % 3 = 0
    ∧ positionFromFaceEdge (faceFromPosition p) (edgeFromPosition p) < 9 * K := by
  unfold positionFromFaceEdge positionFromFace faceFromPosition edgeFromPosition
  omega

theorem pfe_div_canon (n : ℕ) (h3 : n % 3 = 0) :
    positionFromFaceEdge (n / 3 / 3) (n / 3 % 3) = n := by
  unfold positionFromFaceEdge positionFromFace
  omega

theorem pfe_slot (i : ℕ) : positionFromFaceEdge (i / 3) (i % 3) / 3 = i := by
  unfold positionFromFaceEdge positionFromFace
  omega

theorem headD_mem {l : List ℕ} (h : l.length = 1) : l.headD 0 ∈ l := by
  cases l with
  | nil => simp at h
  | cons x xs => simp

theorem mem_unconnected0 (m : Mutator) (p : ℕ) (hp : p ∈ m.unconnected0) :
    p % 3 = 0 ∧ p < 9 * m.faceCount := by
  unfold Mutator.unconnected0 at hp
  rcases List.mem_flatMap.1 hp with ⟨f, hf, hmem⟩
  have hf2 : f < m.faceCount := by simpa using hf
  split at hmem
  · simp at hmem
  · simp only [List.mem_cons, List.not_mem_nil, or_false] at hmem
    rcases hmem with h | h | h <;> subst h <;>
      (unfold positionFromFaceEdge positionFromFace; omega)

theorem init_inv (m : Mutator) (hdiv : 9 ∣ m.positions.length) :
    NState.Inv m.faceCount (NState.init m) := by
  refine ⟨?_, ?_, ?_, ?_, ?_, ?_, ?_, ?_⟩
  · intro p q h
    rw [show (NState.init m).cands = m.cands0 from rfl] at h ⊢
    rw [cands0_mem_char m hdiv] at h ⊢
    exact ⟨h.2.1, h.1, h.2.2.2, h.2.2.1⟩
  · exact fun p q _ => rfl
  · exact fun p q _ => rfl
  · intro p q h
    rw [show (NState.init m).cands = m.cands0 from rfl] at h
    rw [cands0_mem_char m hdiv] at h
    intro hqp
    obtain ⟨⟨hv3, _⟩, hdeg⟩ := h.1
    refine hdeg ⟨edgeFromPosition p, ?_, ?_⟩
    · unfold edgeFromPosition
      simp only [List.mem_cons, List.not_mem_nil, or_false]
      omega
    · rw [pfe_canon p hv3]
      have h2 := h.2.2.1
      rw [hqp] at h2
      exact equalTrios_symm m _ _ h2
  · intro p q h
    exact absurd h (by simp [NState.init])
  · intro p q h
    rw [show (NState.init m).cands = m.cands0 from rfl] at h
    rw [cands0_mem_char m hdiv] at h
    exact h.2.1.1
  · intro p q h
    exact absurd h (by simp [NState.init])
  · exact fun p hp => mem_unconnected0 m p hp

theorem joinIslands_frame (fc : ℕ) (s : NState) (f1 f2 : ℕ) :
    (joinIslands fc s f1 f2).cands = s.cands
    ∧ (joinIslands fc s f1 f2).nb = s.nb
    ∧ (joinIslands fc s f1 f2).unconnected = s.unconnected := by
  unfold joinIslands
  repeat' split
  all_goals exact ⟨rfl, rfl, rfl⟩

theorem setNeighbor_cands_mem (s : NState) (p1 p2 : ℕ)
    (hsymm : ∀ p q, q ∈ s.cands p → p ∈ s.cands q) (q x : ℕ) :
    x ∈ (setNeighbor s p1 p2).cands q ↔ x ∈ s.cands q ∧ q ≠ p1 ∧ x ≠ p1 := by
  unfold setNeighbor
  dsimp only
  by_cases hq : q = p1
  · subst hq
    simp
  · rw [if_neg hq]
    by_cases hmem : q ∈ s.cands p1
    · rw [if_pos hmem]
      simp [List.mem_filter, hq]
    · rw [if_neg hmem]
      constructor
      · intro hx
        refine ⟨hx, hq, ?_⟩
        rintro rfl
        exact hmem (hsymm q x hx)
      · exact fun h => h.1

theorem connectEdge_cands_mem (fc : ℕ) (s : NState) (p1 p2 : ℕ)
    (hsymm : ∀ p q, q ∈ s.cands p → p ∈ s.cands q) (q x : ℕ) :
    x ∈ (connectEdge fc s p1 p2).cands q
      ↔ x ∈ s.cands q ∧ q ≠ p1 ∧ x ≠ p1 ∧ q ≠ p2 ∧ x ≠ p2 := by
  have hs1symm : ∀ p q, q ∈ (setNeighbor s p1 p2).cands p
      → p ∈ (setNeighbor s p1 p2).cands q := by
    intro p q h
    rw [setNeighbor_cands_mem s p1 p2 hsymm] at h ⊢
    exact ⟨hsymm _ _ h.1, h.2.2, h.2.1⟩
  have hj := (joinIslands_frame fc (setNeighbor (setNeighbor s p1 p2) p2 p1)
    (faceFromPosition p1) (faceFromPosition p2)).1
  constructor
  · intro hx
    have hx2 : x ∈ (joinIslands fc (setNeighbor (setNeighbor s p1 p2) p2 p1)
        (faceFromPosition p1) (faceFromPosition p2)).cands q := hx
    rw [congrFun hj q] at hx2
    rw [setNeighbor_cands_mem _ p2 p1 hs1symm,
        setNeighbor_cands_mem s p1 p2 hsymm] at hx2
    exact ⟨hx2.1.1, hx2.1.2.1, hx2.1.2.2, hx2.2.1, hx2.2.2⟩
  · intro hx
    have hx2 : x ∈ (setNeighbor (setNeighbor s p1 p2) p2 p1).cands q := by
      rw [setNeighbor_cands_mem _ p2 p1 hs1symm,
          setNeighbor_cands_mem s p1 p2 hsymm]
      exact ⟨⟨hx.1, hx.2.1, hx.2.2.1⟩, hx.2.2.2.1, hx.2.2.2.2⟩
    show x ∈ (joinIslands fc (setNeighbor (setNeighbor s p1 p2) p2 p1)
        (faceFromPosition p1) (faceFromPosition p2)).cands q
    rw [congrFun hj q]
    exact hx2

theorem connectEdge_nb (fc : ℕ) (s : NState) (p1 p2 q : ℕ) :
    (connectEdge fc s p1 p2).nb q
      = if q = p2 then some p1 else if q = p1 then some p2 else s.nb q := by
  have hj := (joinIslands_frame fc (setNeighbor (setNeighbor s p1 p2) p2 p1)
    (faceFromPosition p1) (faceFromPosition p2)).2.1
  show (joinIslands fc (setNeighbor (setNeighbor s p1 p2) p2 p1)
    (faceFromPosition p1) (faceFromPosition p2)).nb q = _
  rw [congrFun hj q]
  rfl

theorem connectEdge_unconnected_sub (fc : ℕ) (s : NState) (p1 p2 x : ℕ)
    (hx : x ∈ (connectEdge fc s p1 p2).unconnected) : x ∈ s.unconnected := by
  have hj := (joinIslands_frame fc (setNeighbor (setNeighbor s p1 p2) p2 p1)
    (faceFromPosition p1) (faceFromPosition p2)).2.2
  have hx2 : x ∈ ((joinIslands fc (setNeighbor (setNeighbor s p1 p2) p2 p1)
      (faceFromPosition p1) (faceFromPosition p2)).unconnected.filter
      (fun e => decide (e ≠ p1 ∧ e ≠ p2))) := hx
  rw [hj] at hx2
  exact (List.mem_filter.1 hx2).1

theorem connectEdge_inv (fc : ℕ) (s : NState) (p1 p2 : ℕ) (h : NState.Inv fc s)
    (ho1 : s.nb p1 = none) (ho2 : s.nb p2 = none)
    (hv1 : p1 % 3 = 0 ∧ p1 < 9 * fc) (hv2 : p2 % 3 = 0 ∧ p2 < 9 * fc)
    (hne : p1 ≠ p2) : NState.Inv fc (connectEdge fc s p1 p2) := by
  refine ⟨?_, ?_, ?_, ?_, ?_, ?_, ?_, ?_⟩
  · intro p q hq
    rw [connectEdge_cands_mem fc s p1 p2 h.candSymm] at hq ⊢
    exact ⟨h.candSymm _ _ hq.1, hq.2.2.1, hq.2.1, hq.2.2.2.2, hq.2.2.2.1⟩
  · intro p q hq
    rw [connectEdge_cands_mem fc s p1 p2 h.candSymm] at hq
    rw [connectEdge_nb, if_neg hq.2.2.2.2, if_neg hq.2.2.1]
    exact h.candOpen _ _ hq.1
  · intro p q hq
    rw [connectEdge_cands_mem fc s p1 p2 h.candSymm] at hq
    rw [connectEdge_nb, if_neg hq.2.2.2.1, if_neg hq.2.1]
    exact h.candOwnerOpen _ _ hq.1
  · intro p q hq
    rw [connectEdge_cands_mem fc s p1 p2 h.candSymm] at hq
    exact h.candNeq _ _ hq.1
  · intro p q hpq
    rw [connectEdge_nb] at hpq
    rw [connectEdge_nb]
    by_cases hp2 : p = p2
    · rw [if_pos hp2] at hpq
      rw [Option.some.injEq] at hpq
      subst hpq
      rw [if_neg hne, if_pos rfl, hp2]
    · rw [if_neg hp2] at hpq
      by_cases hp1 : p = p1
      · rw [if_pos hp1] at hpq
        rw [Option.some.injEq] at hpq
        subst hpq
        rw [if_pos rfl, hp1]
      · rw [if_neg hp1] at hpq
        have hq2 : q ≠ p2 := by
          rintro rfl
          have h2 := h.nbSymm p q hpq
          rw [ho2] at h2
          exact absurd h2 (by simp)
        have hq1 : q ≠ p1 := by
          rintro rfl
          have h2 := h.nbSymm p q hpq
          rw [ho1] at h2
          exact absurd h2 (by simp)
        rw [if_neg hq2, if_neg hq1]
        exact h.nbSymm p q hpq
  · intro p q hq
    rw [connectEdge_cands_mem fc s p1 p2 h.candSymm] at hq
    exact h.candValid _ _ hq.1
  · intro p q hpq
    rw [connectEdge_nb] at hpq
    by_cases hp2 : p = p2
    · rw [if_pos hp2, Option.some.injEq] at hpq
      exact hpq ▸ hv1
    · rw [if_neg hp2] at hpq
      by_cases hp1 : p = p1
      · rw [if_pos hp1, Option.some.injEq] at hpq
        exact hpq ▸ hv2
      · rw [if_neg hp1] at hpq
        exact h.nbValid p q hpq
  · intro p hp
    exact h.unValid p (connectEdge_unconnected_sub fc s p1 p2 p hp)

theorem removePair_cands_mem (s : NState) (wp wc : ℕ)
    (hwp : wp % 3 = 0) (hwc : wc % 3 = 0) (hne : wp ≠ wc) (q x : ℕ) :
    x ∈ (removePair s wp wc).cands q
      ↔ x ∈ s.cands q ∧ ¬(q = wp ∧ x = wc) ∧ ¬(q = wc ∧ x = wp) := by
  unfold removePair
  dsimp only
  rw [pfe_canon wp hwp, pfe_canon wc hwc]
  by_cases hq2 : q = wc
  · subst hq2
    rw [if_pos rfl, if_neg (Ne.symm hne)]
    simp [List.mem_filter, Ne.symm hne]
  · rw [if_neg hq2]
    by_cases hq1 : q = wp
    · subst hq1
      rw [if_pos rfl]
      simp [List.mem_filter, hq2]
    · rw [if_neg hq1]
      simp [hq1, hq2]

theorem removePair_inv (fc : ℕ) (s : NState) (wp wc : ℕ) (h : NState.Inv fc s)
    (hwp : wp % 3 = 0) (hwc : wc % 3 = 0) (hne : wp ≠ wc) :
    NState.Inv fc (removePair s wp wc) := by
  have hchar := removePair_cands_mem s wp wc hwp hwc hne
  refine ⟨?_, ?_, ?_, ?_, ?_, ?_, ?_, ?_⟩
  · intro p q hq
    rw [hchar] at hq ⊢
    refine ⟨h.candSymm _ _ hq.1, ?_, ?_⟩
    · rintro ⟨h1, h2⟩
      exact hq.2.2 ⟨h2, h1⟩
    · rintro ⟨h1, h2⟩
      exact hq.2.1 ⟨h2, h1⟩
  · intro p q hq
    rw [hchar] at hq
    exact h.candOpen _ _ hq.1
  · intro p q hq
    rw [hchar] at hq
    exact h.candOwnerOpen _ _ hq.1
  · intro p q hq
    rw [hchar] at hq
    exact h.candNeq _ _ hq.1
  · exact h.nbSymm
  · intro p q hq
    rw [hchar] at hq
    exact h.candValid _ _ hq.1
  · exact h.nbValid
  · exact h.unValid

theorem phase1_inv (fc : ℕ) (s : NState) (h : NState.Inv fc s) :
    NState.Inv fc (phase1 fc s).1 := by
  unfold phase1
  refine foldl_preserve (fun st : NState × Bool => NState.Inv fc st.1)
    _ s.unconnected (s, false) ?_ h
  intro st p hp hP
  dsimp only
  split
  next hc =>
    have hplt := h.unValid p hp
    have hcan := canon_valid p fc hplt.2
    have hcmem := headD_mem hc.2
    exact connectEdge_inv fc st.1 _ _ hP hc.1 (hP.candOpen _ _ hcmem) hcan
      (hP.candValid _ _ hcmem) (Ne.symm (hP.candNeq _ _ hcmem))
  next => exact hP

theorem phase2_inv (fc : ℕ) (s : NState) (h : NState.Inv fc s) :
    NState.Inv fc (phase2 fc s).1 := by
  unfold phase2
  refine foldl_preserve (fun st : NState × Bool => NState.Inv fc st.1)
    _ s.unconnected (s, false) ?_ h
  intro st p hp hP
  dsimp only
  split
  · refine foldl_preserve (fun st2 : NState × Bool => NState.Inv fc st2.1)
      _ _ st ?_ hP
    intro st2 c hcl hP2
    dsimp only
    split
    next hc =>
      have hplt := h.unValid p hp
      have hcan := canon_valid p fc hplt.2
      exact connectEdge_inv fc st2.1 _ _ hP2 (hP2.candOwnerOpen _ _ hc.1)
        (hP2.candOpen _ _ hc.1) hcan (hP2.candValid _ _ hc.1)
        (Ne.symm (hP2.candNeq _ _ hc.1))
    next => exact hP2
  · exact hP

theorem worstStep_mem (w : Option (ℕ × ℕ × Q)) (cand r : ℕ × ℕ × Q)
    (h : worstStep w cand = some r) : w = some r ∨ r = cand := by
  cases w with
  | none =>
    have h2 : some cand = some r := h
    rw [Option.some.injEq] at h2
    exact Or.inr h2.symm
  | some w2 =>
    have h2 : (if (Q.qabs (piQ - w2.2.2) > piQ - epsQ ∧
          Q.qabs (piQ - cand.2.2) ≥ Q.qabs (piQ - w2.2.2)) ∨
        (¬ Q.qabs (piQ - w2.2.2) > piQ - epsQ ∧ cand.2.2 > w2.2.2) then
          some cand
        else some w2) = some r := h
    split at h2
    · rw [Option.some.injEq] at h2
      exact Or.inr h2.symm
    · exact Or.inl h2

theorem worstFold_mem (l : List (ℕ × ℕ × Q)) :
    ∀ (w0 : Option (ℕ × ℕ × Q)) (r : ℕ × ℕ × Q),
      l.foldl worstStep w0 = some r → w0 = some r ∨ r ∈ l := by
  induction l with
  | nil => exact fun w0 r h => Or.inl h
  | cons x xs ih =>
    intro w0 r h
    rw [List.foldl_cons] at h
    rcases ih (worstStep w0 x) r h with h2 | h2
    · rcases worstStep_mem w0 x r h2 with h3 | h3
      · exact Or.inl h3
      · exact Or.inr (h3 ▸ List.mem_cons_self _ _)
    · exact Or.inr (List.mem_cons_of_mem _ h2)

theorem worstCandidate_mem (l : List (ℕ × ℕ × Q)) (r : ℕ × ℕ × Q)
    (h : worstCandidate l = some r) : r ∈ l := by
  rcases worstFold_mem l none r h with h2 | h2
  · exact absurd h2 (by simp)
  · exact h2

theorem phase3Cands_mem (ang : ℕ → ℕ → Q) (s : NState) (w : ℕ × ℕ × Q)
    (hw : w ∈ phase3Cands ang s) :
    w.1 ∈ s.unconnected
    ∧ w.2.1 ∈ s.cands
        (positionFromFaceEdge (faceFromPosition w.1) (edgeFromPosition w.1)) := by
  unfold phase3Cands at hw
  rcases List.mem_flatMap.1 hw with ⟨p, hp, hmem⟩
  rcases List.mem_map.1 hmem with ⟨c, hc, heq⟩
  subst heq
  exact ⟨hp, hc⟩

theorem loopBody_inv (ang : ℕ → ℕ → Q) (fc : ℕ) (s : NState)
    (h : NState.Inv fc s) (s2 : NState)
    (hcase : loopBody ang fc s = .next s2 ∨ loopBody ang fc s = .stuck s2) :
    NState.Inv fc s2 := by
  have h1 := phase1_inv fc s h
  have h2 := phase2_inv fc (phase1 fc s).1 h1
  unfold loopBody at hcase
  dsimp only at hcase
  split at hcase
  · rcases hcase with hc | hc
    · cases hc
      exact h1
    · exact absurd hc (by simp)
  · split at hcase
    · rcases hcase with hc | hc
      · cases hc
        exact h2
      · exact absurd hc (by simp)
    · split at hcase
      · rcases hcase with hc | hc
        · exact absurd hc (by simp)
        · cases hc
          exact h2
      · rename_i w hw
        rcases hcase with hc | hc
        · cases hc
          obtain ⟨hun, hcand⟩ :=
            phase3Cands_mem ang _ w (worstCandidate_mem _ w hw)
          have hwp := h2.unValid _ hun
          have hq := pfe_canon w.1 hwp.1
          rw [hq] at hcand
          have hwc := h2.candValid _ _ hcand
          exact removePair_inv fc _ w.1 w.2.1 h2 hwp.1 hwc.1
            (Ne.symm (h2.candNeq _ _ hcand))
        · exact absurd hc (by simp)

theorem loopM_inv (ang : ℕ → ℕ → Q) (fc : ℕ) :
    ∀ (fuel : ℕ) (s : NState), NState.Inv fc s →
      NState.Inv fc (loopM ang fc fuel s)
  | 0, s, h => h
  | fuel + 1, s, h => by
    simp only [loopM]
    split
    · exact h
    · split
      next s3 heq =>
        exact loopM_inv ang fc fuel s3 (loopBody_inv ang fc s h s3 (Or.inl heq))
      next s3 heq =>
        exact loopBody_inv ang fc s h s3 (Or.inr heq)

theorem loopC_inv (ang : ℕ → ℕ → Q) (fc : ℕ) :
    ∀ (fuel : ℕ) (s s2 : NState), NState.Inv fc s →
      loopC ang fc fuel s = some s2 → NState.Inv fc s2
  | 0, s, s2, h, heq => by
    rw [show loopC ang fc 0 s = some s from rfl, Option.some.injEq] at heq
    exact heq ▸ h
  | fuel + 1, s, s2, h, heq => by
    simp only [loopC] at heq
    split at heq
    · rw [Option.some.injEq] at heq
      exact heq ▸ h
    · split at heq
      next s3 h3 =>
        exact loopC_inv ang fc fuel s3 s2
          (loopBody_inv ang fc s h s3 (Or.inl h3)) heq
      next => exact absurd heq (by simp)

theorem serialize_length (fc : ℕ) (s : NState) :
    (serializeNeighbors fc s).length = 3 * fc := by
  unfold serializeNeighbors
  have h := flatMap_length_eq_const
    (fun f => (List.range 3).map fun e =>
      match s.nb (positionFromFaceEdge f e) with
      | some n => some (n / 3) | none => none) 3 (List.range fc)
    (fun x _ => by simp)
  simpa using h

theorem serialize_entry (fc : ℕ) (s : NState) (k : ℕ) (hk : k < 3 * fc) :
    (serializeNeighbors fc s).getD k none
      = match s.nb (positionFromFaceEdge (k / 3) (k % 3)) with
        | some n => some (n / 3)
        | none => none := by
  unfold serializeNeighbors
  rw [List.getD_eq_getElem?_getD]
  have h3 : 3 * (k / 3) + k % 3 = k := by omega
  conv_lhs => rw [← h3]
  rw [flatMap_range3_getElem _ (List.range fc) (k / 3) (k % 3)
      (by simpa using (show k / 3 < fc by omega)) (by omega),
    range_getD fc (k / 3) (by omega)]
  rfl

theorem serializeNeighbors_symmetric (fc : ℕ) (s : NState)
    (h : NState.Inv fc s) : NbSymmetric (serializeNeighbors fc s) := by
  intro i j hij
  rcases Nat.lt_or_ge i (3 * fc) with hi | hi
  · rw [serialize_entry fc s i hi] at hij
    cases hnb : s.nb (positionFromFaceEdge (i / 3) (i % 3)) with
    | none =>
      rw [hnb] at hij
      exact absurd hij (by simp)
    | some n =>
      rw [hnb] at hij
      have hij2 : some (n / 3) = some j := hij
      rw [Option.some.injEq] at hij2
      obtain ⟨hn3, hnlt⟩ := h.nbValid _ _ hnb
      have hsym := h.nbSymm _ _ hnb
      have hjlt : j < 3 * fc := by omega
      rw [serialize_entry fc s j hjlt]
      have hpj : positionFromFaceEdge (j / 3) (j % 3) = n := by
        rw [← hij2]
        exact pfe_div_canon n hn3
      rw [hpj, hsym]
      show some (positionFromFaceEdge (i / 3) (i % 3) / 3) = some i
      rw [pfe_slot i]
  · rw [List.getD_eq_getElem?_getD,
        List.getElem?_eq_none (by rw [serialize_length]; omega)] at hij
    exact absurd hij (by simp)

/-- CLAIM C1 (amended).  For every mesh whose position array is whole
faces (9 scalars per face), the neighbor relation that `findNeighbors`
builds is symmetric — both in the mutator variant (part_003) and, when
the strict variant (part_000) completes successfully, in its result.
The claim's second half is false: `splitFaces` does **not** preserve the
symmetry across all slots it rewrites (see the counterexample: on the
pillow mesh a rewritten slot points at a slot that points elsewhere). -/
theorem findNeighbors_symmetric (ang : ℕ → ℕ → Q) (m : Mutator)
    (hdiv : 9 ∣ m.positions.length) :
    NbSymmetric (Mutator.findNeighborsM ang m).1.neighbors
    ∧ ∀ m2, Mutator.findNeighborsC ang m = some m2 →
        NbSymmetric m2.neighbors := by
  have h0 := init_inv m hdiv
  constructor
  · exact serializeNeighbors_symmetric m.faceCount _
      (loopM_inv ang m.faceCount m.findNeighborsFuel _ h0)
  · intro m2 heq
    unfold Mutator.findNeighborsC at heq
    cases hl : NState.loopC ang m.faceCount m.findNeighborsFuel (NState.init m) with
    | none =>
      rw [hl] at heq
      exact absurd heq (by simp)
    | some sfin =>
      rw [hl] at heq
      have heq2 : some { m with
          neighbors := NState.serializeNeighbors m.faceCount sfin
          reverseIslands := NState.serializeIslands m.faceCount sfin } = some m2 := heq
      rw [Option.some.injEq] at heq2
      rw [← heq2]
      exact serializeNeighbors_symmetric m.faceCount sfin
        (loopC_inv ang m.faceCount m.findNeighborsFuel _ sfin h0 hl)

/-- CLAIM C1 (counterexample).  On the pillow mesh `findNeighbors`
produces a fully symmetric neighbor array, but after `splitFaces` along
`x = 1` the rewritten array is one-directional: slot 6 points at slot 4
while slot 4 points at slot 17.  `splitFaces` does not preserve the
symmetry invariant across the slots it rewrites. -/
theorem splitFaces_breaks_symmetry :
    nbSymmetricB (Mutator.findNeighborsM ang0 pillowMesh).1.neighbors = true
  ∧ (Mutator.splitFaces (Mutator.findNeighborsM ang0 pillowMesh).1
      planeX1).1.neighbors.getD 6 none = some 4
  ∧ (Mutator.splitFaces (Mutator.findNeighborsM ang0 pillowMesh).1
      planeX1).1.neighbors.getD 4 none = some 17
  ∧ ¬ NbSymmetric (Mutator.splitFaces (Mutator.findNeighborsM ang0 pillowMesh).1
      planeX1).1.neighbors := by
  refine ⟨by decide, by decide, by decide, fun h => ?_⟩
  have h1 := h 6 4 (by decide)
  revert h1
  decide

/-- Witness for `findNeighbors_symmetric`: the pillow mesh's positions
are two whole faces, and both variants return the symmetric array. -/
theorem findNeighbors_symmetric_witness :
    NbSymmetric (Mutator.findNeighborsM ang0 pillowMesh).1.neighbors
    ∧ ∀ m2, Mutator.findNeighborsC ang0 pillowMesh = some m2 →
        NbSymmetric m2.neighbors :=
  findNeighbors_symmetric ang0 pillowMesh (by decide)

end FindNeighborsSymmetry

end ThreeTK
